import Mathlib

/-!
Verification of the tool-gating and credential-sanitizing request pipeline
of an MCP server for the Proxmox VE API.

The development shallowly embeds the three core source modules:

* `src/core/errors.ts` — the secret registry (`registerSensitivePattern`,
  `SENSITIVE_PATTERNS`) and the sanitizer (`sanitizeMessage`), together with
  the HTTP client (`PveClient.request`, `PveClient.validateConnection`);
* `src/core/tools.ts` — the tier/category admission filter and the
  error-wrapping executor installed by `registerTool`.

Messages are embedded as `List Char`.  The JavaScript
`String.prototype.replaceAll` with a string pattern and the two global
regular-expression replacements are implemented character by character,
scanning left to right over non-overlapping matches, exactly as the JS
engine does.  The scanners recurse on an explicit fuel bound (initialised
to the length of the scanned list, which the scan never exceeds) so that
every definition is structurally recursive and kernel-computable.
-/

namespace McpPve

/-- Matching of `p` against the beginning of `s`, comparing characters
through the normalisation `f` (`id` for exact JS string matching,
`Char.toLower` for the case-insensitive `/i` regular-expression flag). -/
def startsWF (f : Char → Char) : List Char → List Char → Bool
  | [], _ => true
  | _ :: _, [] => false
  | p :: ps, c :: cs => (f p == f c) && startsWF f ps cs

/-- `p` occurs (under normalisation `f`) as a contiguous segment of `s`;
this is JS `String.prototype.includes` when `f = id`. -/
def occursF (f : Char → Char) (p : List Char) : List Char → Bool
  | [] => p.isEmpty
  | c :: cs => startsWF f p (c :: cs) || occursF f p cs

/-- `p` matches (under `f`) the final segment of `s`. -/
def endsWF (f : Char → Char) (p s : List Char) : Bool :=
  startsWF f p.reverse s.reverse

/-- All decompositions of a list into two contiguous parts. -/
def splitsOf : List Char → List (List Char × List Char)
  | [] => [([], [])]
  | c :: cs => ([], c :: cs) :: (splitsOf cs).map (fun q => (c :: q.1, q.2))

/-- `S` cannot overlap an inserted copy of the replacement text `t`:
`S` does not occur in `t`, `t` does not occur in `S`, and no nontrivial
split of `S` lets one part match a prefix of `t` while starting before it
(or a suffix of `t` while ending after it).  A replacement that inserts
`t` can only create a fresh occurrence of `S` in one of those ways. -/
def sepFromF (f : Char → Char) (S t : List Char) : Bool :=
  !(occursF f S t) && !(occursF f t S) &&
    (splitsOf S).all (fun q =>
      q.1.isEmpty || q.2.isEmpty ||
        (!(startsWF f q.2 t) && !(endsWF f q.1 t)))

/-- ASCII lowering, the embedding of the `/i` regex flag. -/
def lowC (c : Char) : Char := c.toLower

/-- The whitespace class `\s` of JS regular expressions. -/
def isSpaceJS (c : Char) : Bool :=
  c == ' ' || c == '\t' || c == '\n' || c == '\r' ||
  c.val == 11 || c.val == 12 || c.val == 0xA0 || c.val == 0x1680 ||
  (0x2000 ≤ c.val && c.val ≤ 0x200A) || c.val == 0x2028 || c.val == 0x2029 ||
  c.val == 0x202F || c.val == 0x205F || c.val == 0x3000 || c.val == 0xFEFF

/-- The non-whitespace class `\S`. -/
def isNonSpaceJS (c : Char) : Bool := !(isSpaceJS c)

/-- The redaction marker inserted for registered secrets (errors.ts:29). -/
def redactedMark : List Char := "[REDACTED]".data

/-- Source text of the token regular expression `/PVEAPIToken=\S+/gi`. -/
def pveLit : List Char := "PVEAPIToken=".data

/-- Replacement for the token pattern (errors.ts:34). -/
def pveRepl : List Char := "PVEAPIToken=[REDACTED]".data

/-- Source text of the header regular expression `/authorization:\s*\S+/gi`. -/
def authLit : List Char := "authorization:".data

/-- Replacement for the header pattern (errors.ts:38). -/
def authRepl : List Char := "authorization: [REDACTED]".data

/-- One left-to-right scan of `String.prototype.replaceAll` with the
non-empty string pattern `ph :: pt` and replacement `r`: at each position
a match is replaced (and the scan resumes after it), otherwise one
character is emitted.  `fuel` only bounds the recursion; it is called with
`fuel = s.length`, which the scan never exceeds. -/
def scanReplaceF (ph : Char) (pt r : List Char) : Nat → List Char → List Char
  | _, [] => []
  | 0, s => s
  | fuel + 1, c :: cs =>
    if startsWF id (ph :: pt) (c :: cs) then
      r ++ scanReplaceF ph pt r fuel (cs.drop pt.length)
    else
      c :: scanReplaceF ph pt r fuel cs

/-- JS `s.replaceAll(p, r)` for a string pattern `p`.  An empty pattern
inserts `r` at every position (before, between and after the characters),
exactly as in JS; a non-empty pattern is the left-to-right scan. -/
def replaceAll (p r s : List Char) : List Char :=
  match p with
  | [] => r ++ s.foldr (fun c acc => c :: (r ++ acc)) []
  | ph :: pt => scanReplaceF ph pt r s.length s

/-- Global replacement for `/PVEAPIToken=\S+/gi` (errors.ts:32-35): at each
position the literal is matched case-insensitively; `\S+` then greedily
takes the maximal non-empty run of non-whitespace.  On success the match
is replaced by `pveRepl` and the scan resumes after it; otherwise the scan
advances one character. -/
def replacePVEF : Nat → List Char → List Char
  | _, [] => []
  | 0, s => s
  | fuel + 1, c :: cs =>
    if startsWF lowC pveLit (c :: cs) then
      if (((c :: cs).drop 12).takeWhile isNonSpaceJS).isEmpty then
        c :: replacePVEF fuel cs
      else
        pveRepl ++ replacePVEF fuel (((c :: cs).drop 12).dropWhile isNonSpaceJS)
    else c :: replacePVEF fuel cs

/-- `message.replace(/PVEAPIToken=\S+/gi, "PVEAPIToken=[REDACTED]")`. -/
def replacePVE (s : List Char) : List Char := replacePVEF s.length s

/-- Global replacement for `/authorization:\s*\S+/gi` (errors.ts:36-39):
after the case-insensitive literal, `\s*` takes the maximal whitespace run
and `\S+` needs a non-empty non-whitespace run. -/
def replaceAuthF : Nat → List Char → List Char
  | _, [] => []
  | 0, s => s
  | fuel + 1, c :: cs =>
    if startsWF lowC authLit (c :: cs) then
      if ((((c :: cs).drop 14).dropWhile isSpaceJS).takeWhile isNonSpaceJS).isEmpty then
        c :: replaceAuthF fuel cs
      else
        authRepl ++ replaceAuthF fuel
          ((((c :: cs).drop 14).dropWhile isSpaceJS).dropWhile isNonSpaceJS)
    else c :: replaceAuthF fuel cs

/-- `message.replace(/authorization:\s*\S+/gi, "authorization: [REDACTED]")`. -/
def replaceAuth (s : List Char) : List Char := replaceAuthF s.length s

/-- `sanitizeMessage` (errors.ts:26-41): replace every registered pattern
by the redaction marker, in registration order, then apply the two
structural regular-expression replacements.  The mutable module-level
`SENSITIVE_PATTERNS` array is passed explicitly as `patterns`. -/
def sanitizeMessage (patterns : List (List Char)) (message : List Char) : List Char :=
  replaceAuth (replacePVE
    (patterns.foldl (fun acc p => replaceAll p redactedMark acc) message))

/-- `registerSensitivePattern` (errors.ts:16-20): appends the pattern to
the registry unless it is falsy or empty (for a JS string both conditions
collapse to being non-empty). -/
def registerSensitivePattern (pattern : List Char)
    (registry : List (List Char)) : List (List Char) :=
  if pattern.length > 0 then registry ++ [pattern] else registry

/-! ### Basic facts about segment matching -/

theorem startsWF_nil (f : Char → Char) (s : List Char) :
    startsWF f [] s = true := by
  cases s <;> rfl

theorem startsWF_length {f : Char → Char} :
    ∀ {p s : List Char}, startsWF f p s = true → p.length ≤ s.length := by
  intro p
  induction p with
  | nil => intro s _; simp
  | cons a ps ih =>
    intro s h
    cases s with
    | nil => simp [startsWF] at h
    | cons c cs =>
      simp only [startsWF, Bool.and_eq_true] at h
      have := ih h.2
      simp only [List.length_cons]
      omega

theorem startsWF_ext {f : Char → Char} :
    ∀ {p u : List Char} (v : List Char),
      startsWF f p u = true → startsWF f p (u ++ v) = true := by
  intro p
  induction p with
  | nil => intro u v _; exact startsWF_nil f _
  | cons a ps ih =>
    intro u v h
    cases u with
    | nil => simp [startsWF] at h
    | cons c cs =>
      simp only [List.cons_append, startsWF, Bool.and_eq_true] at h ⊢
      exact ⟨h.1, ih v h.2⟩

theorem startsWF_map_eq {f : Char → Char} :
    ∀ {p s : List Char}, startsWF f p s = true →
      List.map f p = List.map f (s.take p.length) := by
  intro p
  induction p with
  | nil => intro s _; simp
  | cons a ps ih =>
    intro s h
    cases s with
    | nil => simp [startsWF] at h
    | cons c cs =>
      simp only [startsWF, Bool.and_eq_true, beq_iff_eq] at h
      simp only [List.length_cons, List.take_succ_cons, List.map]
      exact congrArg₂ (· :: ·) h.1 (ih h.2)

theorem startsWF_of_map_eq {f : Char → Char} :
    ∀ {p q : List Char} (v : List Char), List.map f p = List.map f q →
      startsWF f p (q ++ v) = true := by
  intro p
  induction p with
  | nil => intro q v _; exact startsWF_nil f _
  | cons a ps ih =>
    intro q v h
    cases q with
    | nil => simp at h
    | cons c cs =>
      simp only [List.map, List.cons.injEq] at h
      simp only [List.cons_append, startsWF, Bool.and_eq_true, beq_iff_eq]
      exact ⟨h.1, ih v h.2⟩

theorem startsWF_append_cases {f : Char → Char} :
    ∀ {a b p : List Char}, startsWF f p (a ++ b) = true →
      startsWF f p a = true ∨
      ∃ p₁ p₂, p = p₁ ++ p₂ ∧ startsWF f p₁ a = true ∧
        p₁.length = a.length ∧ startsWF f p₂ b = true := by
  intro a
  induction a with
  | nil =>
    intro b p h
    right
    exact ⟨[], p, rfl, rfl, rfl, h⟩
  | cons c a' ih =>
    intro b p h
    cases p with
    | nil => left; exact startsWF_nil f _
    | cons x ps =>
      simp only [List.cons_append, startsWF, Bool.and_eq_true] at h
      rcases ih h.2 with h' | ⟨p₁, p₂, hp, h₁, hl, h₂⟩
      · left
        simp only [startsWF, Bool.and_eq_true]
        exact ⟨h.1, h'⟩
      · right
        refine ⟨x :: p₁, p₂, by simp [hp], ?_, by simp [hl], h₂⟩
        simp only [startsWF, Bool.and_eq_true]
        exact ⟨h.1, h₁⟩

theorem startsWF_occursF {f : Char → Char} {p s : List Char}
    (h : startsWF f p s = true) : occursF f p s = true := by
  cases s with
  | nil =>
    cases p with
    | nil => rfl
    | cons a ps => simp [startsWF] at h
  | cons c cs => simp [occursF, h]

theorem occursF_nil_pat (f : Char → Char) (s : List Char) :
    occursF f [] s = true := by
  cases s with
  | nil => rfl
  | cons c cs => simp [occursF, startsWF_nil]

theorem occursF_cons {f : Char → Char} {p cs : List Char} (c : Char)
    (h : occursF f p cs = true) : occursF f p (c :: cs) = true := by
  simp [occursF, h]

theorem occursF_append_right {f : Char → Char} {p b : List Char} :
    ∀ a, occursF f p b = true → occursF f p (a ++ b) = true := by
  intro a
  induction a with
  | nil => intro h; exact h
  | cons c a' ih => intro h; exact occursF_cons c (ih h)

theorem occursF_append_left {f : Char → Char} {p a : List Char} (b : List Char)
    (h : occursF f p a = true) : occursF f p (a ++ b) = true := by
  induction a with
  | nil =>
    simp only [occursF, List.isEmpty_iff] at h
    subst h
    exact occursF_nil_pat f _
  | cons c a' ih =>
    simp only [occursF, Bool.or_eq_true] at h
    rcases h with h | h
    · simp only [List.cons_append, occursF, Bool.or_eq_true]
      left
      have := startsWF_ext b h
      simpa using this
    · simp only [List.cons_append, occursF, Bool.or_eq_true]
      exact Or.inr (ih h)

theorem endsWF_cons {f : Char → Char} {p s : List Char} (c : Char)
    (h : endsWF f p s = true) : endsWF f p (c :: s) = true := by
  unfold endsWF at h ⊢
  rw [List.reverse_cons]
  exact startsWF_ext _ h

theorem endsWF_of_full {f : Char → Char} {p s : List Char}
    (h : startsWF f p s = true) (hl : p.length = s.length) :
    endsWF f p s = true := by
  have hm : List.map f p = List.map f s := by
    have := startsWF_map_eq h
    rwa [hl, List.take_length] at this
  have hm' : List.map f p.reverse = List.map f s.reverse := by
    rw [List.map_reverse, List.map_reverse, hm]
  unfold endsWF
  have := startsWF_of_map_eq [] hm'
  simpa using this

theorem occursF_append_split {f : Char → Char} :
    ∀ {a b S : List Char}, occursF f S (a ++ b) = true →
      occursF f S a = true ∨ occursF f S b = true ∨
      ∃ S₁ S₂, S = S₁ ++ S₂ ∧ S₁ ≠ [] ∧ S₂ ≠ [] ∧
        endsWF f S₁ a = true ∧ startsWF f S₂ b = true := by
  intro a
  induction a with
  | nil => intro b S h; right; left; exact h
  | cons c a' ih =>
    intro b S h
    simp only [List.cons_append, occursF, Bool.or_eq_true] at h
    rcases h with h | h
    · have h'' : startsWF f S ((c :: a') ++ b) = true := by simpa using h
      rcases startsWF_append_cases h'' with h' | ⟨S₁, S₂, hS, h₁, hl, h₂⟩
      · left
        exact startsWF_occursF h'
      · by_cases hS₂ : S₂ = []
        · subst hS₂
          left
          rw [hS, List.append_nil]
          exact startsWF_occursF h₁
        · right; right
          refine ⟨S₁, S₂, hS, ?_, hS₂, endsWF_of_full h₁ hl, h₂⟩
          intro hn
          rw [hn] at hl
          simp at hl
    · rcases ih h with h' | h' | ⟨S₁, S₂, hS, h₁, h₂, he, hs⟩
      · left; exact occursF_cons c h'
      · right; left; exact h'
      · right; right
        exact ⟨S₁, S₂, hS, h₁, h₂, endsWF_cons c he, hs⟩

theorem mem_splitsOf : ∀ (q w : List Char), (q, w) ∈ splitsOf (q ++ w) := by
  intro q
  induction q with
  | nil =>
    intro w
    cases w with
    | nil => simp [splitsOf]
    | cons c cs => simp [splitsOf]
  | cons c q' ih =>
    intro w
    simp only [List.cons_append, splitsOf, List.mem_cons]
    right
    exact List.mem_map_of_mem _ (ih w)

theorem sep_not_in {f : Char → Char} {S t : List Char}
    (h : sepFromF f S t = true) : occursF f S t = false := by
  unfold sepFromF at h
  simp only [Bool.and_eq_true, Bool.not_eq_true'] at h
  exact h.1.1

theorem sep_not_contains {f : Char → Char} {S t : List Char}
    (h : sepFromF f S t = true) : occursF f t S = false := by
  unfold sepFromF at h
  simp only [Bool.and_eq_true, Bool.not_eq_true'] at h
  exact h.1.2

theorem sep_split {f : Char → Char} {S t : List Char}
    (h : sepFromF f S t = true) :
    ∀ q w, S = q ++ w → q ≠ [] → w ≠ [] →
      startsWF f w t = false ∧ endsWF f q t = false := by
  intro q w hS hq hw
  unfold sepFromF at h
  simp only [Bool.and_eq_true, List.all_eq_true] at h
  have hm := h.2 (q, w) (by rw [hS]; exact mem_splitsOf q w)
  simp only [Bool.or_eq_true, Bool.and_eq_true, Bool.not_eq_true',
    List.isEmpty_iff] at hm
  rcases hm with (h1 | h1) | h1
  · exact absurd h1 hq
  · exact absurd h1 hw
  · exact h1

theorem sep_ne_nil {f : Char → Char} {S t : List Char}
    (h : sepFromF f S t = true) : S ≠ [] := by
  intro hS
  subst hS
  have := sep_not_in h
  rw [occursF_nil_pat] at this
  simp at this

/-! ### Replacement passes as chunkwise insertions

`Insp t s o` relates the input `s` of one replacement pass to its output
`o`: the output is the input with some non-empty, non-overlapping chunks
replaced by the fixed text `t`.  Every pass of `sanitizeMessage` produces
an output related to its input in this way, and a string `S` that cannot
overlap `t` (`sepFromF`) occurs in the output only where it already
occurred in the input. -/

inductive Insp (t : List Char) : List Char → List Char → Prop where
  | nil : Insp t [] []
  | keep (c : Char) {s o : List Char} : Insp t s o → Insp t (c :: s) (c :: o)
  | repl (chunk : List Char) {s o : List Char} :
      chunk ≠ [] → Insp t s o → Insp t (chunk ++ s) (t ++ o)

theorem insp_pfx {f : Char → Char} {t S : List Char}
    (hsep : sepFromF f S t = true) :
    ∀ {s o : List Char}, Insp t s o → ∀ q w, S = q ++ w → q ≠ [] → w ≠ [] →
      startsWF f w o = true → startsWF f w s = true := by
  intro s o hins
  induction hins with
  | nil =>
    intro q w hS hq hw hst
    cases w with
    | nil => exact absurd rfl hw
    | cons x ws => simp [startsWF] at hst
  | keep c hrec ih =>
    intro q w hS hq hw hst
    cases w with
    | nil => exact absurd rfl hw
    | cons x ws =>
      simp only [startsWF, Bool.and_eq_true] at hst ⊢
      refine ⟨hst.1, ?_⟩
      by_cases hws : ws = []
      · subst hws; exact startsWF_nil f _
      · exact ih (q ++ [x]) ws (by rw [hS]; simp) (by simp) hws hst.2
  | repl chunk hch hrec ih =>
    intro q w hS hq hw hst
    rcases startsWF_append_cases hst with h' | ⟨w₁, w₂, hw', h₁, hl, h₂⟩
    · have hc := (sep_split hsep q w hS hq hw).1
      rw [h'] at hc
      simp at hc
    · exfalso
      have hmap : List.map f t = List.map f w₁ := by
        have := startsWF_map_eq h₁
        rw [hl, List.take_length] at this
        exact this.symm
      have hst' : startsWF f t (w₁ ++ w₂) = true := startsWF_of_map_eq w₂ hmap
      have hocc : occursF f t S = true := by
        rw [hS, hw']
        exact occursF_append_right q (startsWF_occursF hst')
      have hc := sep_not_contains hsep
      rw [hocc] at hc
      simp at hc

theorem insp_preserve {f : Char → Char} {t S : List Char}
    (hsep : sepFromF f S t = true) :
    ∀ {s o : List Char}, Insp t s o → occursF f S o = true →
      occursF f S s = true := by
  intro s o hins
  induction hins with
  | nil => intro h; exact h
  | keep c hrec ih =>
    intro h
    simp only [occursF, Bool.or_eq_true] at h ⊢
    rcases h with h | h
    · cases S with
      | nil => left; exact startsWF_nil f _
      | cons x Ss =>
        simp only [startsWF, Bool.and_eq_true] at h
        left
        simp only [startsWF, Bool.and_eq_true]
        refine ⟨h.1, ?_⟩
        by_cases hSs : Ss = []
        · subst hSs; exact startsWF_nil f _
        · exact insp_pfx hsep hrec [x] Ss rfl (by simp) hSs h.2
    · right; exact ih h
  | repl chunk hch hrec ih =>
    intro h
    rcases occursF_append_split h with h' | h' | ⟨S₁, S₂, hS, h₁, h₂, he, hs⟩
    · have hc := sep_not_in hsep
      rw [h'] at hc
      simp at hc
    · exact occursF_append_right chunk (ih h')
    · have hc := (sep_split hsep S₁ S₂ hS h₁ h₂).2
      rw [he] at hc
      simp at hc

/-! ### The `replaceAll` scan -/

theorem startsWF_id_decomp :
    ∀ {p s : List Char}, startsWF id p s = true → s = p ++ s.drop p.length := by
  intro p
  induction p with
  | nil => intro s _; simp
  | cons a ps ih =>
    intro s h
    cases s with
    | nil => simp [startsWF] at h
    | cons c cs =>
      simp only [startsWF, Bool.and_eq_true, id_eq, beq_iff_eq] at h
      have := ih h.2
      simp only [List.length_cons, List.drop_succ_cons, List.cons_append]
      rw [h.1]
      exact congrArg (c :: ·) this

theorem scanReplaceF_insp (ph : Char) (pt r : List Char) :
    ∀ fuel s, s.length ≤ fuel → Insp r s (scanReplaceF ph pt r fuel s) := by
  intro fuel
  induction fuel with
  | zero =>
    intro s hs
    have hnil : s = [] := List.eq_nil_of_length_eq_zero (Nat.le_zero.mp hs)
    subst hnil
    exact Insp.nil
  | succ fuel ih =>
    intro s hs
    cases s with
    | nil => exact Insp.nil
    | cons c cs =>
      simp only [scanReplaceF]
      by_cases h : startsWF id (ph :: pt) (c :: cs) = true
      · rw [if_pos h]
        have hdec := startsWF_id_decomp h
        simp only [List.length_cons, List.drop_succ_cons] at hdec
        rw [hdec]
        refine Insp.repl (ph :: pt) (by simp) (ih _ ?_)
        have h1 : cs.length ≤ fuel := by
          simp only [List.length_cons] at hs; omega
        have h2 := List.length_drop pt.length cs
        omega
      · rw [if_neg h]
        refine Insp.keep c (ih cs ?_)
        simp only [List.length_cons] at hs; omega

theorem scanReplaceF_removes {r : List Char} {Sh : Char} {St : List Char}
    (hsep : sepFromF id (Sh :: St) r = true) :
    ∀ fuel s, s.length ≤ fuel →
      occursF id (Sh :: St) (scanReplaceF Sh St r fuel s) = false := by
  intro fuel
  induction fuel with
  | zero =>
    intro s hs
    have hnil : s = [] := List.eq_nil_of_length_eq_zero (Nat.le_zero.mp hs)
    subst hnil
    rfl
  | succ fuel ih =>
    intro s hs
    cases s with
    | nil => rfl
    | cons c cs =>
      have hcs : cs.length ≤ fuel := by
        simp only [List.length_cons] at hs; omega
      simp only [scanReplaceF]
      by_cases h : startsWF id (Sh :: St) (c :: cs) = true
      · rw [if_pos h]
        cases hocc : occursF id (Sh :: St)
            (r ++ scanReplaceF Sh St r fuel (cs.drop St.length)) with
        | false => rfl
        | true =>
          exfalso
          rcases occursF_append_split hocc with h' | h' | ⟨S₁, S₂, hS, h₁, h₂, he, _⟩
          · have hc := sep_not_in hsep
            rw [h'] at hc; simp at hc
          · have hrem := ih (cs.drop St.length)
              (by have := List.length_drop St.length cs; omega)
            rw [h'] at hrem; simp at hrem
          · have hc := (sep_split hsep S₁ S₂ hS h₁ h₂).2
            rw [he] at hc; simp at hc
      · rw [if_neg h]
        have h2 : occursF id (Sh :: St) (scanReplaceF Sh St r fuel cs) = false :=
          ih cs hcs
        have h1 : startsWF id (Sh :: St) (c :: scanReplaceF Sh St r fuel cs) = false := by
          cases hst : startsWF id (Sh :: St) (c :: scanReplaceF Sh St r fuel cs) with
          | false => rfl
          | true =>
            exfalso
            simp only [startsWF, Bool.and_eq_true] at hst
            have hSt : startsWF id St cs = true := by
              by_cases hS : St = []
              · subst hS; exact startsWF_nil id _
              · exact insp_pfx hsep (scanReplaceF_insp Sh St r fuel cs hcs)
                  [Sh] St rfl (by simp) hS hst.2
            exact h (by simp only [startsWF, Bool.and_eq_true]; exact ⟨hst.1, hSt⟩)
        rw [occursF, h1, h2]
        rfl

theorem scanReplaceF_id {ph : Char} {pt r : List Char} :
    ∀ fuel s, s.length ≤ fuel → occursF id (ph :: pt) s = false →
      scanReplaceF ph pt r fuel s = s := by
  intro fuel
  induction fuel with
  | zero =>
    intro s hs _
    have hnil : s = [] := List.eq_nil_of_length_eq_zero (Nat.le_zero.mp hs)
    subst hnil
    rfl
  | succ fuel ih =>
    intro s hs h
    cases s with
    | nil => rfl
    | cons c cs =>
      simp only [occursF, Bool.or_eq_true, Bool.not_eq_true] at h
      have hcomp : startsWF id (ph :: pt) (c :: cs) = false ∧
          occursF id (ph :: pt) cs = false := by
        cases h1 : startsWF id (ph :: pt) (c :: cs) with
        | true => rw [h1] at h; simp at h
        | false =>
          cases h2 : occursF id (ph :: pt) cs with
          | true => rw [h1, h2] at h; simp at h
          | false => exact ⟨rfl, rfl⟩
      simp only [scanReplaceF]
      rw [if_neg (by rw [hcomp.1]; simp)]
      have hcs : cs.length ≤ fuel := by
        simp only [List.length_cons] at hs; omega
      rw [ih cs hcs hcomp.2]

theorem replaceAll_insp {p : List Char} (r s : List Char) (hp : p ≠ []) :
    Insp r s (replaceAll p r s) := by
  cases p with
  | nil => exact absurd rfl hp
  | cons ph pt => exact scanReplaceF_insp ph pt r s.length s (Nat.le_refl _)

theorem replaceAll_removes {p : List Char} (s : List Char)
    (hsep : sepFromF id p redactedMark = true) :
    occursF id p (replaceAll p redactedMark s) = false := by
  cases p with
  | nil => exact absurd rfl (sep_ne_nil hsep)
  | cons ph pt => exact scanReplaceF_removes hsep s.length s (Nat.le_refl _)

theorem replaceAll_id {p : List Char} (r s : List Char) (hp : p ≠ [])
    (h : occursF id p s = false) : replaceAll p r s = s := by
  cases p with
  | nil => exact absurd rfl hp
  | cons ph pt => exact scanReplaceF_id s.length s (Nat.le_refl _) h

/-! ### The two regular-expression passes -/

theorem len_dropWhile_le (p : Char → Bool) (l : List Char) :
    (l.dropWhile p).length ≤ l.length :=
  (List.dropWhile_sublist _).length_le

theorem replacePVEF_insp :
    ∀ fuel s, s.length ≤ fuel → Insp pveRepl s (replacePVEF fuel s) := by
  intro fuel
  induction fuel with
  | zero =>
    intro s hs
    have hnil : s = [] := List.eq_nil_of_length_eq_zero (Nat.le_zero.mp hs)
    subst hnil
    exact Insp.nil
  | succ fuel ih =>
    intro s hs
    cases s with
    | nil => exact Insp.nil
    | cons c cs =>
      have hcs : cs.length ≤ fuel := by
        simp only [List.length_cons] at hs; omega
      simp only [replacePVEF]
      by_cases h : startsWF lowC pveLit (c :: cs) = true
      · rw [if_pos h]
        by_cases hrun : (((c :: cs).drop 12).takeWhile isNonSpaceJS).isEmpty = true
        · rw [if_pos hrun]
          exact Insp.keep c (ih cs hcs)
        · rw [if_neg hrun]
          have hdecomp : c :: cs =
              ((c :: cs).take 12 ++ ((c :: cs).drop 12).takeWhile isNonSpaceJS) ++
                ((c :: cs).drop 12).dropWhile isNonSpaceJS := by
            calc c :: cs = (c :: cs).take 12 ++ (c :: cs).drop 12 :=
                  (List.take_append_drop _ _).symm
              _ = (c :: cs).take 12 ++
                  (((c :: cs).drop 12).takeWhile isNonSpaceJS ++
                    ((c :: cs).drop 12).dropWhile isNonSpaceJS) := by
                  rw [List.takeWhile_append_dropWhile]
              _ = _ := by rw [List.append_assoc]
          have hlen : (((c :: cs).drop 12).dropWhile isNonSpaceJS).length ≤ fuel := by
            have e1 := len_dropWhile_le isNonSpaceJS ((c :: cs).drop 12)
            have e2 := List.length_drop 12 (c :: cs)
            simp only [List.length_cons] at e2
            omega
          nth_rewrite 1 [hdecomp]
          refine Insp.repl _ ?_ (ih _ hlen)
          rw [List.take_succ_cons]
          simp
      · rw [if_neg h]
        exact Insp.keep c (ih cs hcs)

theorem replacePVEF_id :
    ∀ fuel s, s.length ≤ fuel → occursF lowC pveLit s = false →
      replacePVEF fuel s = s := by
  intro fuel
  induction fuel with
  | zero =>
    intro s hs _
    have hnil : s = [] := List.eq_nil_of_length_eq_zero (Nat.le_zero.mp hs)
    subst hnil
    rfl
  | succ fuel ih =>
    intro s hs h
    cases s with
    | nil => rfl
    | cons c cs =>
      have hcs : cs.length ≤ fuel := by
        simp only [List.length_cons] at hs; omega
      have hcomp : startsWF lowC pveLit (c :: cs) = false ∧
          occursF lowC pveLit cs = false := by
        cases h1 : startsWF lowC pveLit (c :: cs) with
        | true =>
          exfalso
          rw [occursF, h1] at h
          simp at h
        | false =>
          cases h2 : occursF lowC pveLit cs with
          | true =>
            exfalso
            rw [occursF, h1, h2] at h
            simp at h
          | false => exact ⟨rfl, rfl⟩
      simp only [replacePVEF]
      rw [if_neg (by rw [hcomp.1]; simp)]
      rw [ih cs hcs hcomp.2]

theorem replaceAuthF_insp :
    ∀ fuel s, s.length ≤ fuel → Insp authRepl s (replaceAuthF fuel s) := by
  intro fuel
  induction fuel with
  | zero =>
    intro s hs
    have hnil : s = [] := List.eq_nil_of_length_eq_zero (Nat.le_zero.mp hs)
    subst hnil
    exact Insp.nil
  | succ fuel ih =>
    intro s hs
    cases s with
    | nil => exact Insp.nil
    | cons c cs =>
      have hcs : cs.length ≤ fuel := by
        simp only [List.length_cons] at hs; omega
      simp only [replaceAuthF]
      by_cases h : startsWF lowC authLit (c :: cs) = true
      · rw [if_pos h]
        by_cases hrun :
            ((((c :: cs).drop 14).dropWhile isSpaceJS).takeWhile isNonSpaceJS).isEmpty = true
        · rw [if_pos hrun]
          exact Insp.keep c (ih cs hcs)
        · rw [if_neg hrun]
          have hdecomp : c :: cs =
              ((c :: cs).take 14 ++ (((c :: cs).drop 14).takeWhile isSpaceJS ++
                  (((c :: cs).drop 14).dropWhile isSpaceJS).takeWhile isNonSpaceJS)) ++
                (((c :: cs).drop 14).dropWhile isSpaceJS).dropWhile isNonSpaceJS := by
            have : ((c :: cs).take 14 ++ (((c :: cs).drop 14).takeWhile isSpaceJS ++
                  (((c :: cs).drop 14).dropWhile isSpaceJS).takeWhile isNonSpaceJS)) ++
                (((c :: cs).drop 14).dropWhile isSpaceJS).dropWhile isNonSpaceJS =
                c :: cs := by
              simp only [List.append_assoc, List.takeWhile_append_dropWhile,
                List.take_append_drop]
            exact this.symm
          have hlen :
              ((((c :: cs).drop 14).dropWhile isSpaceJS).dropWhile isNonSpaceJS).length ≤
                fuel := by
            have e1 := len_dropWhile_le isNonSpaceJS
              (((c :: cs).drop 14).dropWhile isSpaceJS)
            have e2 := len_dropWhile_le isSpaceJS ((c :: cs).drop 14)
            have e3 := List.length_drop 14 (c :: cs)
            simp only [List.length_cons] at e3
            omega
          nth_rewrite 1 [hdecomp]
          refine Insp.repl _ ?_ (ih _ hlen)
          rw [List.take_succ_cons]
          simp
      · rw [if_neg h]
        exact Insp.keep c (ih cs hcs)

theorem replaceAuthF_id :
    ∀ fuel s, s.length ≤ fuel → occursF lowC authLit s = false →
      replaceAuthF fuel s = s := by
  intro fuel
  induction fuel with
  | zero =>
    intro s hs _
    have hnil : s = [] := List.eq_nil_of_length_eq_zero (Nat.le_zero.mp hs)
    subst hnil
    rfl
  | succ fuel ih =>
    intro s hs h
    cases s with
    | nil => rfl
    | cons c cs =>
      have hcs : cs.length ≤ fuel := by
        simp only [List.length_cons] at hs; omega
      have hcomp : startsWF lowC authLit (c :: cs) = false ∧
          occursF lowC authLit cs = false := by
        cases h1 : startsWF lowC authLit (c :: cs) with
        | true =>
          exfalso
          rw [occursF, h1] at h
          simp at h
        | false =>
          cases h2 : occursF lowC authLit cs with
          | true =>
            exfalso
            rw [occursF, h1, h2] at h
            simp at h
          | false => exact ⟨rfl, rfl⟩
      simp only [replaceAuthF]
      rw [if_neg (by rw [hcomp.1]; simp)]
      rw [ih cs hcs hcomp.2]

theorem replacePVE_insp (s : List Char) : Insp pveRepl s (replacePVE s) :=
  replacePVEF_insp s.length s (Nat.le_refl _)

theorem replacePVE_id {s : List Char} (h : occursF lowC pveLit s = false) :
    replacePVE s = s :=
  replacePVEF_id s.length s (Nat.le_refl _) h

theorem replaceAuth_insp (s : List Char) : Insp authRepl s (replaceAuth s) :=
  replaceAuthF_insp s.length s (Nat.le_refl _)

theorem replaceAuth_id {s : List Char} (h : occursF lowC authLit s = false) :
    replaceAuth s = s :=
  replaceAuthF_id s.length s (Nat.le_refl _) h

/-! ### Character-level facts about ASCII lowering

`Char.toLower` only maps the basic latin range 65-90 down by 32; in
particular it maps whitespace to itself and never maps a letter onto a
whitespace character, so two characters with the same lowering agree on
the JS whitespace class. -/

theorem toLower_eq (c : Char) :
    Char.toLower c =
      if 65 ≤ c.toNat ∧ c.toNat ≤ 90 then Char.ofNat (c.toNat + 32) else c :=
  rfl

theorem toLower_cases (c : Char) :
    Char.toLower c = c ∨ (65 ≤ c.toNat ∧ c.toNat ≤ 90) := by
  by_cases h : 65 ≤ c.toNat ∧ c.toNat ≤ 90
  · exact Or.inr h
  · left
    rw [toLower_eq, if_neg h]

theorem isSpaceJS_upper {c : Char} (h1 : 65 ≤ c.toNat) (h2 : c.toNat ≤ 90) :
    isSpaceJS c = false := by
  have hc : c = Char.ofNat c.toNat := (Char.ofNat_toNat c).symm
  rw [hc]
  revert h1 h2
  generalize c.toNat = n
  intro h1 h2
  interval_cases n <;> decide

theorem isSpaceJS_lower_range {n : Nat} (h1 : 97 ≤ n) (h2 : n ≤ 122) :
    isSpaceJS (Char.ofNat n) = false := by
  interval_cases n <;> decide

theorem lowC_space_eq {d e : Char} (h : lowC d = lowC e) :
    isSpaceJS d = isSpaceJS e := by
  unfold lowC at h
  rcases toLower_cases d with hd | hd <;> rcases toLower_cases e with he | he
  · rw [hd, he] at h
    rw [h]
  · rw [isSpaceJS_upper he.1 he.2]
    rw [hd] at h
    rw [h, toLower_eq, if_pos he]
    exact isSpaceJS_lower_range (by omega) (by omega)
  · rw [isSpaceJS_upper hd.1 hd.2]
    rw [he] at h
    rw [← h, toLower_eq, if_pos hd]
    exact (isSpaceJS_lower_range (by omega) (by omega)).symm
  · rw [isSpaceJS_upper hd.1 hd.2, isSpaceJS_upper he.1 he.2]

/-! ### The head-whitespace test `spacey` -/

/-- Whether `\S+` finds nothing to consume exactly here: the continuation
is exhausted or starts with whitespace. -/
def spacey : List Char → Bool
  | [] => true
  | c :: _ => isSpaceJS c

theorem spacey_takeWhile_isEmpty (z : List Char) :
    (z.takeWhile isNonSpaceJS).isEmpty = spacey z := by
  cases z with
  | nil => rfl
  | cons c cs =>
    simp only [List.takeWhile_cons, spacey]
    cases h : isSpaceJS c with
    | true => simp [isNonSpaceJS, h]
    | false => simp [isNonSpaceJS, h]

theorem spacey_dropWhile_nonspace (z : List Char) :
    spacey (z.dropWhile isNonSpaceJS) = true := by
  induction z with
  | nil => rfl
  | cons c cs ih =>
    simp only [List.dropWhile_cons]
    cases h : isNonSpaceJS c with
    | true => simpa [h] using ih
    | false =>
      simp only [isNonSpaceJS, Bool.not_eq_false'] at h
      simp [spacey, h]

theorem dropWhile_nonspace_spacey {z : List Char} (h : spacey z = true) :
    z.dropWhile isNonSpaceJS = z := by
  cases z with
  | nil => rfl
  | cons c cs =>
    simp only [spacey] at h
    simp [List.dropWhile_cons, isNonSpaceJS, h]

theorem takeWhile_nonspace_spacey {z : List Char} (h : spacey z = true) :
    z.takeWhile isNonSpaceJS = [] := by
  cases z with
  | nil => rfl
  | cons c cs =>
    simp only [spacey] at h
    simp [List.takeWhile_cons, isNonSpaceJS, h]

theorem spacey_of_mapEq {a b : List Char}
    (h : List.map lowC a = List.map lowC b) : spacey a = spacey b := by
  cases a with
  | nil =>
    cases b with
    | nil => rfl
    | cons y ys => simp at h
  | cons x xs =>
    cases b with
    | nil => simp at h
    | cons y ys =>
      simp only [List.map, List.cons.injEq] at h
      simp only [spacey]
      exact lowC_space_eq h.1

theorem dropWhile_isEmpty_iff_all (p : Char → Bool) (z : List Char) :
    (z.dropWhile p).isEmpty = z.all p := by
  induction z with
  | nil => rfl
  | cons c cs ih =>
    simp only [List.dropWhile_cons, List.all_cons]
    cases h : p c with
    | true => simpa [h] using ih
    | false => simp [h]

theorem spacey_dropWhile_space (x : List Char) :
    spacey (x.dropWhile isSpaceJS) = (x.dropWhile isSpaceJS).isEmpty := by
  induction x with
  | nil => rfl
  | cons c cs ih =>
    simp only [List.dropWhile_cons]
    cases h : isSpaceJS c with
    | true => simpa [h] using ih
    | false => simp [spacey, h]

theorem takeWhile_append_all {p : Char → Bool} :
    ∀ {a : List Char} (b : List Char), a.all p = true →
      (a ++ b).takeWhile p = a ++ b.takeWhile p := by
  intro a
  induction a with
  | nil => intro b _; rfl
  | cons x a' ih =>
    intro b h
    simp only [List.all_cons, Bool.and_eq_true] at h
    simp [List.takeWhile_cons, h.1, ih b h.2]

theorem dropWhile_append_all {p : Char → Bool} :
    ∀ {a : List Char} (b : List Char), a.all p = true →
      (a ++ b).dropWhile p = b.dropWhile p := by
  intro a
  induction a with
  | nil => intro b _; rfl
  | cons x a' ih =>
    intro b h
    simp only [List.all_cons, Bool.and_eq_true] at h
    simp [List.dropWhile_cons, h.1, ih b h.2]

/-! ### Window transfer: strings that agree (case-insensitively) on a
prefix window decide the scanner head conditions identically -/

theorem mapEq_take_proj {y z : List Char} {k m : Nat} (hm : m ≤ k)
    (h : List.map lowC (y.take k) = List.map lowC (z.take k)) :
    List.map lowC (y.take m) = List.map lowC (z.take m) := by
  have h' := congrArg (List.take m) h
  rwa [← List.map_take, ← List.map_take, List.take_take, List.take_take,
    Nat.min_eq_left hm] at h'

theorem startsWF_iff_map {f : Char → Char} {q y : List Char} :
    startsWF f q y = true ↔
      (q.length ≤ y.length ∧ List.map f q = List.map f (y.take q.length)) := by
  constructor
  · intro h
    exact ⟨startsWF_length h, startsWF_map_eq h⟩
  · rintro ⟨hl, hm⟩
    have h' := startsWF_of_map_eq (y.drop q.length) hm
    rwa [List.take_append_drop] at h'

theorem startsWF_transfer {q y z : List Char} {k : Nat} (hq : q.length ≤ k)
    (h : List.map lowC (y.take k) = List.map lowC (z.take k)) :
    startsWF lowC q y = startsWF lowC q z := by
  have hlen : (y.take k).length = (z.take k).length := by
    have := congrArg List.length h
    simpa using this
  simp only [List.length_take] at hlen
  have hmq : List.map lowC (y.take q.length) = List.map lowC (z.take q.length) :=
    mapEq_take_proj hq h
  cases hy : startsWF lowC q y with
  | true =>
    obtain ⟨h1, h2⟩ := startsWF_iff_map.mp hy
    exact (startsWF_iff_map.mpr ⟨by omega, h2.trans hmq⟩).symm
  | false =>
    cases hz : startsWF lowC q z with
    | false => rfl
    | true =>
      obtain ⟨h1, h2⟩ := startsWF_iff_map.mp hz
      have hy' : startsWF lowC q y = true :=
        startsWF_iff_map.mpr ⟨by omega, h2.trans hmq.symm⟩
      rw [hy'] at hy
      cases hy

theorem spacey_drop_transfer {y z : List Char} {k m : Nat} (hm : m + 1 ≤ k)
    (h : List.map lowC (y.take k) = List.map lowC (z.take k)) :
    spacey (y.drop m) = spacey (z.drop m) := by
  have e : ∀ x : List Char, spacey (x.drop m) = spacey ((x.take (m + 1)).drop m) := by
    intro x
    have hx : (x.take (m + 1)).drop m = (x.drop m).take 1 := by
      rw [List.drop_take]
      congr 1
      omega
    rw [hx]
    cases x.drop m with
    | nil => rfl
    | cons c cs => rfl
  rw [e y, e z]
  apply spacey_of_mapEq
  have h' := mapEq_take_proj hm h
  calc List.map lowC ((y.take (m + 1)).drop m)
      = (List.map lowC (y.take (m + 1))).drop m := by rw [List.map_drop]
    _ = (List.map lowC (z.take (m + 1))).drop m := by rw [h']
    _ = List.map lowC ((z.take (m + 1)).drop m) := by rw [List.map_drop]

/-! ### Scanner head conditions and one-step equations -/

/-- The match condition of the token scanner at the head of `s`:
the case-insensitive literal followed by a non-empty `\S+` run. -/
def pMatch (s : List Char) : Bool :=
  startsWF lowC pveLit s && !((s.drop 12).takeWhile isNonSpaceJS).isEmpty

/-- The match condition of the header scanner at the head of `s`:
the case-insensitive literal, `\s*`, then a non-empty `\S+` run. -/
def aMatch (s : List Char) : Bool :=
  startsWF lowC authLit s &&
    !(((s.drop 14).dropWhile isSpaceJS).takeWhile isNonSpaceJS).isEmpty

theorem replacePVEF_cons_eq (fuel : Nat) (c : Char) (cs : List Char) :
    replacePVEF (fuel + 1) (c :: cs) =
      if pMatch (c :: cs) then
        pveRepl ++ replacePVEF fuel (((c :: cs).drop 12).dropWhile isNonSpaceJS)
      else c :: replacePVEF fuel cs := by
  simp only [replacePVEF]
  by_cases h1 : startsWF lowC pveLit (c :: cs) = true
  · rw [if_pos h1]
    by_cases h2 : (((c :: cs).drop 12).takeWhile isNonSpaceJS).isEmpty = true
    · have hm : pMatch (c :: cs) = false := by
        unfold pMatch
        rw [h2]
        simp
      rw [if_pos h2, if_neg (by simp [hm])]
    · have hm : pMatch (c :: cs) = true := by
        unfold pMatch
        rw [h1, eq_false_of_ne_true h2]
        rfl
      rw [if_neg h2, if_pos hm]
  · have hm : pMatch (c :: cs) = false := by
      unfold pMatch
      rw [eq_false_of_ne_true h1]
      rfl
    rw [if_neg h1, if_neg (by simp [hm])]

theorem replaceAuthF_cons_eq (fuel : Nat) (c : Char) (cs : List Char) :
    replaceAuthF (fuel + 1) (c :: cs) =
      if aMatch (c :: cs) then
        authRepl ++
          replaceAuthF fuel ((((c :: cs).drop 14).dropWhile isSpaceJS).dropWhile isNonSpaceJS)
      else c :: replaceAuthF fuel cs := by
  simp only [replaceAuthF]
  by_cases h1 : startsWF lowC authLit (c :: cs) = true
  · rw [if_pos h1]
    by_cases h2 :
      ((((c :: cs).drop 14).dropWhile isSpaceJS).takeWhile isNonSpaceJS).isEmpty = true
    · have hm : aMatch (c :: cs) = false := by
        unfold aMatch
        rw [h2]
        simp
      rw [if_pos h2, if_neg (by simp [hm])]
    · have hm : aMatch (c :: cs) = true := by
        unfold aMatch
        rw [h1, eq_false_of_ne_true h2]
        rfl
      rw [if_neg h2, if_pos hm]
  · have hm : aMatch (c :: cs) = false := by
      unfold aMatch
      rw [eq_false_of_ne_true h1]
      rfl
    rw [if_neg h1, if_neg (by simp [hm])]

theorem fuel_irrel_pve : ∀ (f1 f2 : Nat) (s : List Char), s.length ≤ f1 → s.length ≤ f2 →
    replacePVEF f1 s = replacePVEF f2 s := by
  intro f1
  induction f1 with
  | zero =>
    intro f2 s h1 _
    have hnil : s = [] := List.eq_nil_of_length_eq_zero (Nat.le_zero.mp h1)
    subst hnil
    cases f2 <;> rfl
  | succ f1 ih =>
    intro f2 s h1 h2
    cases s with
    | nil => cases f2 <;> rfl
    | cons c cs =>
      cases f2 with
      | zero => simp at h2
      | succ f2 =>
        rw [replacePVEF_cons_eq, replacePVEF_cons_eq]
        simp only [List.length_cons] at h1 h2
        by_cases hm : pMatch (c :: cs) = true
        · rw [if_pos hm, if_pos hm]
          congr 1
          apply ih
          · have e1 := len_dropWhile_le isNonSpaceJS ((c :: cs).drop 12)
            have e2 := List.length_drop 12 (c :: cs)
            simp only [List.length_cons] at e2
            omega
          · have e1 := len_dropWhile_le isNonSpaceJS ((c :: cs).drop 12)
            have e2 := List.length_drop 12 (c :: cs)
            simp only [List.length_cons] at e2
            omega
        · rw [if_neg hm, if_neg hm]
          rw [ih f2 cs (by omega) (by omega)]

theorem fuel_irrel_auth : ∀ (f1 f2 : Nat) (s : List Char), s.length ≤ f1 → s.length ≤ f2 →
    replaceAuthF f1 s = replaceAuthF f2 s := by
  intro f1
  induction f1 with
  | zero =>
    intro f2 s h1 _
    have hnil : s = [] := List.eq_nil_of_length_eq_zero (Nat.le_zero.mp h1)
    subst hnil
    cases f2 <;> rfl
  | succ f1 ih =>
    intro f2 s h1 h2
    cases s with
    | nil => cases f2 <;> rfl
    | cons c cs =>
      cases f2 with
      | zero => simp at h2
      | succ f2 =>
        rw [replaceAuthF_cons_eq, replaceAuthF_cons_eq]
        simp only [List.length_cons] at h1 h2
        by_cases hm : aMatch (c :: cs) = true
        · rw [if_pos hm, if_pos hm]
          congr 1
          apply ih
          · have e1 := len_dropWhile_le isNonSpaceJS
              (((c :: cs).drop 14).dropWhile isSpaceJS)
            have e2 := len_dropWhile_le isSpaceJS ((c :: cs).drop 14)
            have e3 := List.length_drop 14 (c :: cs)
            simp only [List.length_cons] at e3
            omega
          · have e1 := len_dropWhile_le isNonSpaceJS
              (((c :: cs).drop 14).dropWhile isSpaceJS)
            have e2 := len_dropWhile_le isSpaceJS ((c :: cs).drop 14)
            have e3 := List.length_drop 14 (c :: cs)
            simp only [List.length_cons] at e3
            omega
        · rw [if_neg hm, if_neg hm]
          rw [ih f2 cs (by omega) (by omega)]

theorem replacePVE_skip {c : Char} {cs : List Char} (h : pMatch (c :: cs) = false) :
    replacePVE (c :: cs) = c :: replacePVE cs := by
  unfold replacePVE
  simp only [List.length_cons]
  rw [replacePVEF_cons_eq, if_neg (by simp [h])]

theorem replacePVE_repl {c : Char} {cs : List Char} (h : pMatch (c :: cs) = true) :
    replacePVE (c :: cs) =
      pveRepl ++ replacePVE (((c :: cs).drop 12).dropWhile isNonSpaceJS) := by
  unfold replacePVE
  simp only [List.length_cons]
  rw [replacePVEF_cons_eq, if_pos h]
  congr 1
  apply fuel_irrel_pve
  · have e1 := len_dropWhile_le isNonSpaceJS ((c :: cs).drop 12)
    have e2 := List.length_drop 12 (c :: cs)
    simp only [List.length_cons] at e2
    omega
  · exact Nat.le_refl _

theorem replaceAuth_skip {c : Char} {cs : List Char} (h : aMatch (c :: cs) = false) :
    replaceAuth (c :: cs) = c :: replaceAuth cs := by
  unfold replaceAuth
  simp only [List.length_cons]
  rw [replaceAuthF_cons_eq, if_neg (by simp [h])]

theorem replaceAuth_repl {c : Char} {cs : List Char} (h : aMatch (c :: cs) = true) :
    replaceAuth (c :: cs) =
      authRepl ++
        replaceAuth ((((c :: cs).drop 14).dropWhile isSpaceJS).dropWhile isNonSpaceJS) := by
  unfold replaceAuth
  simp only [List.length_cons]
  rw [replaceAuthF_cons_eq, if_pos h]
  congr 1
  apply fuel_irrel_auth
  · have e1 := len_dropWhile_le isNonSpaceJS (((c :: cs).drop 14).dropWhile isSpaceJS)
    have e2 := len_dropWhile_le isSpaceJS ((c :: cs).drop 14)
    have e3 := List.length_drop 14 (c :: cs)
    simp only [List.length_cons] at e3
    omega
  · exact Nat.le_refl _

/-! ### Each pass preserves its own matching window -/

theorem window_pveF : ∀ (fuel : Nat) (u : List Char), u.length ≤ fuel →
    List.map lowC ((replacePVEF fuel u).take 12) = List.map lowC (u.take 12) := by
  intro fuel
  induction fuel with
  | zero =>
    intro u h
    have hnil : u = [] := List.eq_nil_of_length_eq_zero (Nat.le_zero.mp h)
    subst hnil
    rfl
  | succ fuel ih =>
    intro u h
    cases u with
    | nil => rfl
    | cons c cs =>
      simp only [List.length_cons] at h
      rw [replacePVEF_cons_eq]
      by_cases hm : pMatch (c :: cs) = true
      · rw [if_pos hm]
        have hlit : startsWF lowC pveLit (c :: cs) = true := by
          unfold pMatch at hm
          simp only [Bool.and_eq_true] at hm
          exact hm.1
        have h1 : (pveRepl ++
              replacePVEF fuel (((c :: cs).drop 12).dropWhile isNonSpaceJS)).take 12 =
            pveRepl.take 12 :=
          List.take_append_of_le_length (by decide)
        have h2 : List.map lowC (pveRepl.take 12) = List.map lowC pveLit := by decide
        have h3 := startsWF_map_eq hlit
        have h4 : pveLit.length = 12 := by decide
        rw [h4] at h3
        rw [h1, h2, h3]
      · rw [if_neg hm]
        show List.map lowC (c :: (replacePVEF fuel cs).take 11) =
          List.map lowC (c :: cs.take 11)
        simp only [List.map]
        congr 1
        exact mapEq_take_proj (by omega) (ih cs (by omega))

theorem window_pve (u : List Char) :
    List.map lowC ((replacePVE u).take 12) = List.map lowC (u.take 12) :=
  window_pveF u.length u (Nat.le_refl _)

theorem window_authF : ∀ (fuel : Nat) (u : List Char), u.length ≤ fuel →
    List.map lowC ((replaceAuthF fuel u).take 14) = List.map lowC (u.take 14) := by
  intro fuel
  induction fuel with
  | zero =>
    intro u h
    have hnil : u = [] := List.eq_nil_of_length_eq_zero (Nat.le_zero.mp h)
    subst hnil
    rfl
  | succ fuel ih =>
    intro u h
    cases u with
    | nil => rfl
    | cons c cs =>
      simp only [List.length_cons] at h
      rw [replaceAuthF_cons_eq]
      by_cases hm : aMatch (c :: cs) = true
      · rw [if_pos hm]
        have hlit : startsWF lowC authLit (c :: cs) = true := by
          unfold aMatch at hm
          simp only [Bool.and_eq_true] at hm
          exact hm.1
        have h1 : (authRepl ++
              replaceAuthF fuel
                ((((c :: cs).drop 14).dropWhile isSpaceJS).dropWhile isNonSpaceJS)).take 14 =
            authRepl.take 14 :=
          List.take_append_of_le_length (by decide)
        have h2 : List.map lowC (authRepl.take 14) = List.map lowC authLit := by decide
        have h3 := startsWF_map_eq hlit
        have h4 : authLit.length = 14 := by decide
        rw [h4] at h3
        rw [h1, h2, h3]
      · rw [if_neg hm]
        show List.map lowC (c :: (replaceAuthF fuel cs).take 13) =
          List.map lowC (c :: cs.take 13)
        simp only [List.map]
        congr 1
        exact mapEq_take_proj (by omega) (ih cs (by omega))

theorem window_auth (u : List Char) :
    List.map lowC ((replaceAuth u).take 14) = List.map lowC (u.take 14) :=
  window_authF u.length u (Nat.le_refl _)

theorem pMatch_transfer {c : Char} {y z : List Char}
    (h : List.map lowC (y.take 12) = List.map lowC (z.take 12)) :
    pMatch (c :: y) = pMatch (c :: z) := by
  unfold pMatch
  have hP : pveLit = 'P' :: "VEAPIToken=".data := rfl
  have hlit : startsWF lowC pveLit (c :: y) = startsWF lowC pveLit (c :: z) := by
    rw [hP]
    show ((lowC 'P' == lowC c) && startsWF lowC ("VEAPIToken=".data) y) =
      ((lowC 'P' == lowC c) && startsWF lowC ("VEAPIToken=".data) z)
    rw [@startsWF_transfer ("VEAPIToken=".data) y z 12 (by decide) h]
  have hrun : (((c :: y).drop 12).takeWhile isNonSpaceJS).isEmpty =
      (((c :: z).drop 12).takeWhile isNonSpaceJS).isEmpty := by
    rw [spacey_takeWhile_isEmpty, spacey_takeWhile_isEmpty]
    show spacey (y.drop 11) = spacey (z.drop 11)
    exact spacey_drop_transfer (by omega) h
  rw [hlit, hrun]

theorem aLit_transfer {c : Char} {y z : List Char}
    (h : List.map lowC (y.take 14) = List.map lowC (z.take 14)) :
    startsWF lowC authLit (c :: y) = startsWF lowC authLit (c :: z) := by
  have hA : authLit = 'a' :: "uthorization:".data := rfl
  rw [hA]
  show ((lowC 'a' == lowC c) && startsWF lowC ("uthorization:".data) y) =
    ((lowC 'a' == lowC c) && startsWF lowC ("uthorization:".data) z)
  rw [@startsWF_transfer ("uthorization:".data) y z 14 (by decide) h]

/-! ### A trailing all-whitespace region admits no header literal -/

theorem startsWF_false_of_space_at :
    ∀ (lit s : List Char) (n : Nat),
      lit.all isNonSpaceJS = true → n < lit.length →
      ((s.drop n).all isSpaceJS) = true → startsWF lowC lit s = false := by
  intro lit
  induction lit with
  | nil =>
    intro s n _ hn _
    simp at hn
  | cons l lt ih =>
    intro s n hall hn hsp
    simp only [List.all_cons, Bool.and_eq_true] at hall
    cases s with
    | nil => rfl
    | cons c cs =>
      cases n with
      | zero =>
        have hc : isSpaceJS c = true := by
          rw [List.drop_zero] at hsp
          simp only [List.all_cons, Bool.and_eq_true] at hsp
          exact hsp.1
        have hne : (lowC l == lowC c) = false := by
          rw [beq_eq_false_iff_ne]
          intro heq
          have hsame := lowC_space_eq heq
          rw [hc] at hsame
          have hl : isNonSpaceJS l = true := hall.1
          rw [isNonSpaceJS, hsame] at hl
          simp at hl
        show ((lowC l == lowC c) && startsWF lowC lt cs) = false
        rw [hne]
        rfl
      | succ m =>
        have hrec : startsWF lowC lt cs = false := by
          apply ih cs m hall.2
          · simp only [List.length_cons] at hn
            omega
          · simpa [List.drop_succ_cons] using hsp
        show ((lowC l == lowC c) && startsWF lowC lt cs) = false
        rw [hrec]
        simp

theorem no_authLit_of_allSpace :
    ∀ (cs : List Char) (n : Nat), n < 14 → ((cs.drop n).all isSpaceJS) = true →
      occursF lowC authLit cs = false := by
  intro cs
  induction cs with
  | nil => intro n _ _; rfl
  | cons c cs ih =>
    intro n hn hsp
    have h1 : startsWF lowC authLit (c :: cs) = false := by
      refine startsWF_false_of_space_at authLit (c :: cs) n (by decide) ?_ hsp
      have h14 : authLit.length = 14 := by decide
      omega
    have h2 : occursF lowC authLit cs = false := by
      cases n with
      | zero =>
        apply ih 0 (by omega)
        rw [List.drop_zero] at hsp ⊢
        simp only [List.all_cons, Bool.and_eq_true] at hsp
        exact hsp.2
      | succ m =>
        apply ih m (by omega)
        simpa [List.drop_succ_cons] using hsp
    show (startsWF lowC authLit (c :: cs) || occursF lowC authLit cs) = false
    rw [h1, h2]
    rfl

/-! ### Whitespace heads are inert for both scanners -/

theorem pMatch_space_head {c : Char} {cs : List Char} (h : isSpaceJS c = true) :
    pMatch (c :: cs) = false := by
  unfold pMatch
  have hlit : startsWF lowC pveLit (c :: cs) = false := by
    have hP : pveLit = 'P' :: "VEAPIToken=".data := rfl
    rw [hP]
    show ((lowC 'P' == lowC c) && startsWF lowC ("VEAPIToken=".data) cs) = false
    have hne : (lowC 'P' == lowC c) = false := by
      rw [beq_eq_false_iff_ne]
      intro heq
      have hsame := lowC_space_eq heq
      rw [h] at hsame
      exact absurd hsame (by decide)
    rw [hne]
    rfl
  rw [hlit]
  rfl

theorem aMatch_space_head {c : Char} {cs : List Char} (h : isSpaceJS c = true) :
    aMatch (c :: cs) = false := by
  unfold aMatch
  have hlit : startsWF lowC authLit (c :: cs) = false := by
    have hA : authLit = 'a' :: "uthorization:".data := rfl
    rw [hA]
    show ((lowC 'a' == lowC c) && startsWF lowC ("uthorization:".data) cs) = false
    have hne : (lowC 'a' == lowC c) = false := by
      rw [beq_eq_false_iff_ne]
      intro heq
      have hsame := lowC_space_eq heq
      rw [h] at hsame
      exact absurd hsame (by decide)
    rw [hne]
    rfl
  rw [hlit]
  rfl

theorem spacey_replacePVE {z : List Char} (h : spacey z = true) :
    spacey (replacePVE z) = true := by
  cases z with
  | nil => rfl
  | cons c cs =>
    simp only [spacey] at h
    rw [replacePVE_skip (pMatch_space_head h)]
    simpa [spacey] using h

theorem spacey_replaceAuth {z : List Char} (h : spacey z = true) :
    spacey (replaceAuth z) = true := by
  cases z with
  | nil => rfl
  | cons c cs =>
    simp only [spacey] at h
    rw [replaceAuth_skip (aMatch_space_head h)]
    simpa [spacey] using h

/-! ### Freshly inserted replacement blocks re-match identically -/

def pveTail : List Char := "VEAPIToken=[REDACTED]".data

def authTail : List Char := "uthorization: [REDACTED]".data

theorem pveRepl_cons : pveRepl = 'P' :: pveTail := by decide

theorem authRepl_cons : authRepl = 'a' :: authTail := by decide

theorem pveRepl_drop (s : List Char) :
    (pveRepl ++ s).drop 12 = redactedMark ++ s := by
  have e : pveRepl = pveLit ++ redactedMark := by decide
  have hlen : pveLit.length = 12 := by decide
  rw [e, List.append_assoc, List.drop_left' hlen]

theorem authRepl_drop (s : List Char) :
    (authRepl ++ s).drop 14 = ' ' :: (redactedMark ++ s) := by
  have e : authRepl = authLit ++ (' ' :: redactedMark) := by decide
  have hlen : authLit.length = 14 := by decide
  rw [e, List.append_assoc, List.drop_left' hlen]
  rfl

theorem authRepl_dropSpace (s : List Char) :
    ((authRepl ++ s).drop 14).dropWhile isSpaceJS = redactedMark ++ s := by
  rw [authRepl_drop]
  have hsp : isSpaceJS ' ' = true := by decide
  rw [List.dropWhile_cons, if_pos hsp]
  show ('[' :: ("REDACTED]".data ++ s)).dropWhile isSpaceJS = redactedMark ++ s
  have hnb : ¬(isSpaceJS '[' = true) := by decide
  rw [List.dropWhile_cons, if_neg hnb]
  rfl

theorem pMatch_block (s : List Char) : pMatch (pveRepl ++ s) = true := by
  have h1 : startsWF lowC pveLit (pveRepl ++ s) = true := by
    have hm : List.map lowC pveLit = List.map lowC (pveRepl.take 12) := by decide
    have h := @startsWF_of_map_eq lowC pveLit (pveRepl.take 12) (pveRepl.drop 12 ++ s) hm
    rwa [← List.append_assoc, List.take_append_drop] at h
  have hall : redactedMark.all isNonSpaceJS = true := by decide
  unfold pMatch
  rw [h1, pveRepl_drop, takeWhile_append_all s hall]
  rfl

theorem aMatch_block (s : List Char) : aMatch (authRepl ++ s) = true := by
  have h1 : startsWF lowC authLit (authRepl ++ s) = true := by
    have hm : List.map lowC authLit = List.map lowC (authRepl.take 14) := by decide
    have h := @startsWF_of_map_eq lowC authLit (authRepl.take 14) (authRepl.drop 14 ++ s) hm
    rwa [← List.append_assoc, List.take_append_drop] at h
  have hall : redactedMark.all isNonSpaceJS = true := by decide
  unfold aMatch
  rw [h1, authRepl_dropSpace, takeWhile_append_all s hall]
  rfl

theorem replacePVE_block {s : List Char} (hs : spacey s = true) :
    replacePVE (pveRepl ++ s) = pveRepl ++ replacePVE s := by
  have hconv : pveRepl ++ s = 'P' :: (pveTail ++ s) := by
    rw [pveRepl_cons, List.cons_append]
  have hm : pMatch ('P' :: (pveTail ++ s)) = true := by
    rw [← hconv]
    exact pMatch_block s
  have h := replacePVE_repl hm
  rw [← hconv] at h
  have hall : redactedMark.all isNonSpaceJS = true := by decide
  rw [h, pveRepl_drop, dropWhile_append_all s hall, dropWhile_nonspace_spacey hs]

theorem replaceAuth_block {s : List Char} (hs : spacey s = true) :
    replaceAuth (authRepl ++ s) = authRepl ++ replaceAuth s := by
  have hconv : authRepl ++ s = 'a' :: (authTail ++ s) := by
    rw [authRepl_cons, List.cons_append]
  have hm : aMatch ('a' :: (authTail ++ s)) = true := by
    rw [← hconv]
    exact aMatch_block s
  have h := replaceAuth_repl hm
  rw [← hconv] at h
  have hall : redactedMark.all isNonSpaceJS = true := by decide
  rw [h, authRepl_dropSpace, dropWhile_append_all s hall, dropWhile_nonspace_spacey hs]

/-! ### Canonical forms of the two regex-pass outputs -/

/-- Canonical form of a `replacePVE` output: characters at which the token
pattern does not match, interleaved with replacement blocks that are
followed by whitespace or the end of the string. -/
inductive PGood : List Char → Prop where
  | nil : PGood []
  | skip {c : Char} {cs : List Char} :
      pMatch (c :: cs) = false → PGood cs → PGood (c :: cs)
  | block {s : List Char} : spacey s = true → PGood s → PGood (pveRepl ++ s)

/-- Canonical form of a `replaceAuth` output. -/
inductive AGood : List Char → Prop where
  | nil : AGood []
  | skip {c : Char} {cs : List Char} :
      aMatch (c :: cs) = false → AGood cs → AGood (c :: cs)
  | block {s : List Char} : spacey s = true → AGood s → AGood (authRepl ++ s)

theorem PGood_fix : ∀ {s : List Char}, PGood s → replacePVE s = s := by
  intro s h
  induction h with
  | nil => rfl
  | skip hm _ ih => rw [replacePVE_skip hm, ih]
  | block hs _ ih => rw [replacePVE_block hs, ih]

theorem AGood_fix : ∀ {s : List Char}, AGood s → replaceAuth s = s := by
  intro s h
  induction h with
  | nil => rfl
  | skip hm _ ih => rw [replaceAuth_skip hm, ih]
  | block hs _ ih => rw [replaceAuth_block hs, ih]

theorem PGood_outF : ∀ (fuel : Nat) (s : List Char), s.length ≤ fuel →
    PGood (replacePVEF fuel s) := by
  intro fuel
  induction fuel with
  | zero =>
    intro s h
    have hnil : s = [] := List.eq_nil_of_length_eq_zero (Nat.le_zero.mp h)
    subst hnil
    exact PGood.nil
  | succ fuel ih =>
    intro s hlen
    cases s with
    | nil => exact PGood.nil
    | cons c cs =>
      simp only [List.length_cons] at hlen
      rw [replacePVEF_cons_eq]
      by_cases hm : pMatch (c :: cs) = true
      · rw [if_pos hm]
        have hu : (((c :: cs).drop 12).dropWhile isNonSpaceJS).length ≤ fuel := by
          have e1 := len_dropWhile_le isNonSpaceJS ((c :: cs).drop 12)
          have e2 := List.length_drop 12 (c :: cs)
          simp only [List.length_cons] at e2
          omega
        have heq : replacePVEF fuel (((c :: cs).drop 12).dropWhile isNonSpaceJS)
            = replacePVE (((c :: cs).drop 12).dropWhile isNonSpaceJS) :=
          fuel_irrel_pve fuel (((c :: cs).drop 12).dropWhile isNonSpaceJS).length
            (((c :: cs).drop 12).dropWhile isNonSpaceJS) hu (Nat.le_refl _)
        rw [heq]
        have hgv : PGood (replacePVE (((c :: cs).drop 12).dropWhile isNonSpaceJS)) := by
          rw [← heq]
          exact ih _ hu
        exact PGood.block (spacey_replacePVE (spacey_dropWhile_nonspace _)) hgv
      · rw [if_neg hm]
        apply PGood.skip
        · have hw := window_pveF fuel cs (by omega)
          rw [pMatch_transfer hw]
          cases hpm : pMatch (c :: cs) with
          | false => rfl
          | true => exact absurd hpm hm
        · exact ih cs (by omega)

theorem PGood_out (s : List Char) : PGood (replacePVE s) :=
  PGood_outF s.length s (Nat.le_refl _)

theorem AGood_outF : ∀ (fuel : Nat) (s : List Char), s.length ≤ fuel →
    AGood (replaceAuthF fuel s) := by
  intro fuel
  induction fuel with
  | zero =>
    intro s h
    have hnil : s = [] := List.eq_nil_of_length_eq_zero (Nat.le_zero.mp h)
    subst hnil
    exact AGood.nil
  | succ fuel ih =>
    intro s hlen
    cases s with
    | nil => exact AGood.nil
    | cons c cs =>
      simp only [List.length_cons] at hlen
      rw [replaceAuthF_cons_eq]
      by_cases hm : aMatch (c :: cs) = true
      · rw [if_pos hm]
        have hu : ((((c :: cs).drop 14).dropWhile isSpaceJS).dropWhile isNonSpaceJS).length
            ≤ fuel := by
          have e1 := len_dropWhile_le isNonSpaceJS (((c :: cs).drop 14).dropWhile isSpaceJS)
          have e2 := len_dropWhile_le isSpaceJS ((c :: cs).drop 14)
          have e3 := List.length_drop 14 (c :: cs)
          simp only [List.length_cons] at e3
          omega
        have heq : replaceAuthF fuel
              ((((c :: cs).drop 14).dropWhile isSpaceJS).dropWhile isNonSpaceJS)
            = replaceAuth ((((c :: cs).drop 14).dropWhile isSpaceJS).dropWhile isNonSpaceJS) :=
          fuel_irrel_auth fuel
            ((((c :: cs).drop 14).dropWhile isSpaceJS).dropWhile isNonSpaceJS).length
            ((((c :: cs).drop 14).dropWhile isSpaceJS).dropWhile isNonSpaceJS)
            hu (Nat.le_refl _)
        rw [heq]
        have hgv : AGood
            (replaceAuth ((((c :: cs).drop 14).dropWhile isSpaceJS).dropWhile isNonSpaceJS)) := by
          rw [← heq]
          exact ih _ hu
        exact AGood.block (spacey_replaceAuth (spacey_dropWhile_nonspace _)) hgv
      · rw [if_neg hm]
        have hm' : aMatch (c :: cs) = false := by
          cases hval : aMatch (c :: cs) with
          | false => rfl
          | true => exact absurd hval hm
        have hskip : aMatch (c :: replaceAuthF fuel cs) = false := by
          cases hlit : startsWF lowC authLit (c :: cs) with
          | false =>
            have hw := window_authF fuel cs (by omega)
            unfold aMatch
            rw [aLit_transfer hw, hlit, Bool.false_and]
          | true =>
            have hrun := hm'
            unfold aMatch at hrun
            simp only [hlit, Bool.true_and, Bool.not_eq_false'] at hrun
            rw [spacey_takeWhile_isEmpty, spacey_dropWhile_space,
              dropWhile_isEmpty_iff_all] at hrun
            have hocc : occursF lowC authLit cs = false :=
              no_authLit_of_allSpace cs 13 (by omega) hrun
            have hfix : replaceAuthF fuel cs = cs := by
              have h1 : replaceAuthF fuel cs = replaceAuth cs :=
                fuel_irrel_auth fuel cs.length cs (by omega) (Nat.le_refl _)
              rw [h1]
              exact replaceAuth_id hocc
            rw [hfix]
            exact hm'
        exact AGood.skip hskip (ih cs (by omega))

theorem AGood_out (s : List Char) : AGood (replaceAuth s) :=
  AGood_outF s.length s (Nat.le_refl _)

/-! ### The auth pass leaves the canonical PVE form intact -/

theorem take_ge_length : ∀ (l : List Char) (n : Nat), l.length ≤ n → l.take n = l := by
  intro l
  induction l with
  | nil => intro n _; cases n <;> rfl
  | cons c cs ih =>
    intro n h
    cases n with
    | zero => simp at h
    | succ m =>
      simp only [List.length_cons] at h
      rw [List.take_succ_cons, ih m (by omega)]

theorem startsWF_false_pfx {f : Char → Char} {q t : List Char}
    (h : startsWF f (q.take t.length) t = false) (s : List Char) :
    startsWF f q (t ++ s) = false := by
  cases hq : startsWF f q (t ++ s) with
  | false => rfl
  | true =>
    exfalso
    rcases startsWF_append_cases hq with h1 | ⟨q₁, q₂, hsplit, h1, hlen, h2⟩
    · have hle := startsWF_length h1
      rw [take_ge_length q t.length hle, h1] at h
      cases h
    · have hq1 : q.take t.length = q₁ := by
        rw [hsplit, ← hlen, List.take_left]
      rw [hq1, h1] at h
      cases h

theorem auth_skips_pveRepl : ∀ i, i < 22 →
    startsWF lowC (authLit.take (22 - i)) (pveRepl.drop i) = false := by
  intro i hi
  interval_cases i <;> decide

theorem pve_skips_pveRepl : ∀ i, 1 ≤ i → i < 22 →
    startsWF lowC (pveLit.take (22 - i)) (pveRepl.drop i) = false := by
  intro i h1 h2
  interval_cases i <;> decide

theorem pve_skips_authRepl : ∀ i, i < 25 →
    startsWF lowC (pveLit.take (25 - i)) (authRepl.drop i) = false := by
  intro i hi
  interval_cases i <;> decide

theorem replaceAuth_prepend_nolit :
    ∀ (a : List Char), (∀ i, i < a.length →
        startsWF lowC (authLit.take (a.length - i)) (a.drop i) = false) →
      ∀ (s : List Char), replaceAuth (a ++ s) = a ++ replaceAuth s := by
  intro a
  induction a with
  | nil => intro _ s; rfl
  | cons x a' ih =>
    intro hno s
    rw [List.cons_append]
    have hlit : startsWF lowC authLit (x :: (a' ++ s)) = false := by
      have h0 := hno 0 (by simp only [List.length_cons]; omega)
      simp only [List.drop_zero, Nat.sub_zero] at h0
      have h := startsWF_false_pfx h0 s
      rwa [List.cons_append] at h
    have hm : aMatch (x :: (a' ++ s)) = false := by
      unfold aMatch
      rw [hlit, Bool.false_and]
    have hno' : ∀ i, i < a'.length →
        startsWF lowC (authLit.take (a'.length - i)) (a'.drop i) = false := by
      intro i hi
      have h := hno (i + 1) (by simp only [List.length_cons]; omega)
      simpa [List.length_cons, Nat.add_sub_add_right, List.drop_succ_cons] using h
    rw [replaceAuth_skip hm, ih hno' s]
    rfl

theorem replaceAuth_pveRepl (s : List Char) :
    replaceAuth (pveRepl ++ s) = pveRepl ++ replaceAuth s := by
  apply replaceAuth_prepend_nolit
  intro i hi
  have h22 : pveRepl.length = 22 := by decide
  rw [h22] at hi
  rw [h22]
  exact auth_skips_pveRepl i hi

theorem PGood_prepend_nolit :
    ∀ (a : List Char), (∀ i, i < a.length →
        startsWF lowC (pveLit.take (a.length - i)) (a.drop i) = false) →
      ∀ {X : List Char}, PGood X → PGood (a ++ X) := by
  intro a
  induction a with
  | nil => intro _ X h; exact h
  | cons x a' ih =>
    intro hno X hX
    rw [List.cons_append]
    have hlit : startsWF lowC pveLit (x :: (a' ++ X)) = false := by
      have h0 := hno 0 (by simp only [List.length_cons]; omega)
      simp only [List.drop_zero, Nat.sub_zero] at h0
      have h := startsWF_false_pfx h0 X
      rwa [List.cons_append] at h
    have hno' : ∀ i, i < a'.length →
        startsWF lowC (pveLit.take (a'.length - i)) (a'.drop i) = false := by
      intro i hi
      have h := hno (i + 1) (by simp only [List.length_cons]; omega)
      simpa [List.length_cons, Nat.add_sub_add_right, List.drop_succ_cons] using h
    apply PGood.skip
    · unfold pMatch
      rw [hlit, Bool.false_and]
    · exact ih hno' hX

theorem PGood_drop : ∀ {s : List Char}, PGood s → ∀ n, PGood (s.drop n) := by
  intro s h
  induction h with
  | nil =>
    intro n
    rw [List.drop_nil]
    exact PGood.nil
  | @skip c cs hm hg ih =>
    intro n
    cases n with
    | zero => exact PGood.skip hm hg
    | succ m => exact ih m
  | @block s' hs hg ih =>
    intro n
    rcases Nat.lt_or_ge n 22 with h22 | h22
    · rcases Nat.eq_zero_or_pos n with h0 | h0
      · subst h0
        exact PGood.block hs hg
      · have hle : n ≤ pveRepl.length := by
          have hl : pveRepl.length = 22 := by decide
          omega
        rw [List.drop_append_of_le_length hle]
        refine PGood_prepend_nolit (pveRepl.drop n) ?_ hg
        intro i hi
        have hlen : (pveRepl.drop n).length = 22 - n := by
          have hl : pveRepl.length = 22 := by decide
          rw [List.length_drop, hl]
        have hdd : (pveRepl.drop n).drop i = pveRepl.drop (n + i) := by
          rw [List.drop_drop]
        rw [hlen] at hi
        rw [hlen, hdd, Nat.sub_sub]
        exact pve_skips_pveRepl (n + i) (by omega) (by omega)
    · have e : (pveRepl ++ s').drop n = s'.drop (n - 22) := by
        have h1 : (pveRepl ++ s').drop n = ((pveRepl ++ s').drop 22).drop (n - 22) := by
          rw [List.drop_drop]
          congr 1
          omega
        have h2 : (pveRepl ++ s').drop 22 = s' := List.drop_left' (by decide)
        rw [h1, h2]
      rw [e]
      exact ih (n - 22)

theorem dropWhile_eq_drop (p : Char → Bool) :
    ∀ (l : List Char), ∃ k, l.dropWhile p = l.drop k := by
  intro l
  induction l with
  | nil => exact ⟨0, rfl⟩
  | cons c cs ih =>
    cases hp : p c with
    | false => exact ⟨0, by simp [List.dropWhile_cons, hp]⟩
    | true =>
      obtain ⟨k, hk⟩ := ih
      exact ⟨k + 1, by simp [List.dropWhile_cons, hp, hk, List.drop_succ_cons]⟩

theorem PGood_replaceAuthF : ∀ (N : Nat) (s : List Char), s.length ≤ N → PGood s →
    PGood (replaceAuth s) := by
  intro N
  induction N with
  | zero =>
    intro s h _
    have hnil : s = [] := List.eq_nil_of_length_eq_zero (Nat.le_zero.mp h)
    subst hnil
    exact PGood.nil
  | succ N ih =>
    intro s hlen hg
    cases hg with
    | nil => exact PGood.nil
    | @skip c cs hm hg' =>
      simp only [List.length_cons] at hlen
      by_cases ha : aMatch (c :: cs) = true
      · rw [replaceAuth_repl ha]
        obtain ⟨k1, hk1⟩ := dropWhile_eq_drop isSpaceJS ((c :: cs).drop 14)
        obtain ⟨k2, hk2⟩ :=
          dropWhile_eq_drop isNonSpaceJS (((c :: cs).drop 14).dropWhile isSpaceJS)
        have hg0 : PGood (c :: cs) := PGood.skip hm hg'
        have hgv : PGood ((((c :: cs).drop 14).dropWhile isSpaceJS).dropWhile isNonSpaceJS) := by
          rw [hk2, hk1, List.drop_drop, List.drop_drop]
          exact PGood_drop hg0 _
        have hlv : ((((c :: cs).drop 14).dropWhile isSpaceJS).dropWhile isNonSpaceJS).length
            ≤ N := by
          have e1 := len_dropWhile_le isNonSpaceJS (((c :: cs).drop 14).dropWhile isSpaceJS)
          have e2 := len_dropWhile_le isSpaceJS ((c :: cs).drop 14)
          have e3 := List.length_drop 14 (c :: cs)
          simp only [List.length_cons] at e3
          omega
        have hrv := ih _ hlv hgv
        refine PGood_prepend_nolit authRepl ?_ hrv
        intro i hi
        have h25 : authRepl.length = 25 := by decide
        rw [h25] at hi
        rw [h25]
        exact pve_skips_authRepl i hi
      · have ha' : aMatch (c :: cs) = false := by
          cases hval : aMatch (c :: cs) with
          | false => rfl
          | true => exact absurd hval ha
        rw [replaceAuth_skip ha']
        apply PGood.skip
        · have hw := window_auth cs
          have hw12 := @mapEq_take_proj (replaceAuth cs) cs 14 12 (by omega) hw
          rw [pMatch_transfer hw12]
          exact hm
        · exact ih cs (by omega) hg'
    | @block s' hs hg' =>
      rw [replaceAuth_pveRepl]
      apply PGood.block
      · exact spacey_replaceAuth hs
      · refine ih s' ?_ hg'
        have h22 : pveRepl.length = 22 := by decide
        rw [List.length_append, h22] at hlen
        omega

theorem PGood_replaceAuth {s : List Char} (h : PGood s) : PGood (replaceAuth s) :=
  PGood_replaceAuthF s.length s (Nat.le_refl _) h

/-! ### The sanitizer as a whole -/

/-- The first phase of `sanitizeMessage`: the fold of `replaceAll` over the
registered patterns, in registration order. -/
def foldRepl (patterns : List (List Char)) (message : List Char) : List Char :=
  patterns.foldl (fun acc p => replaceAll p redactedMark acc) message

theorem sanitizeMessage_eq (patterns : List (List Char)) (message : List Char) :
    sanitizeMessage patterns message = replaceAuth (replacePVE (foldRepl patterns message)) :=
  rfl

/-- A string that cannot overlap the redaction marker stays absent through
the whole pattern-replacement fold. -/
theorem foldRepl_preserve {f : Char → Char} {S : List Char}
    (hsep : sepFromF f S redactedMark = true) :
    ∀ (ps : List (List Char)) (u : List Char), (∀ p ∈ ps, p ≠ []) →
      occursF f S u = false → occursF f S (foldRepl ps u) = false := by
  intro ps
  induction ps with
  | nil => intro u _ h; exact h
  | cons p ps ih =>
    intro u hne h
    have hstep : occursF f S (replaceAll p redactedMark u) = false := by
      cases hocc : occursF f S (replaceAll p redactedMark u) with
      | false => rfl
      | true =>
        exfalso
        have hins := replaceAll_insp redactedMark u (hne p (List.mem_cons_self _ _))
        have := insp_preserve hsep hins hocc
        rw [this] at h
        simp at h
    have := ih (replaceAll p redactedMark u)
      (fun q hq => hne q (List.mem_cons_of_mem _ hq)) hstep
    simpa [foldRepl] using this

/-- If no registered pattern occurs in `u`, the fold leaves `u` unchanged. -/
theorem foldRepl_id :
    ∀ (ps : List (List Char)) (u : List Char), (∀ p ∈ ps, p ≠ []) →
      (∀ p ∈ ps, occursF id p u = false) → foldRepl ps u = u := by
  intro ps
  induction ps with
  | nil => intro u _ _; rfl
  | cons p ps ih =>
    intro u hne hocc
    have h1 : replaceAll p redactedMark u = u :=
      replaceAll_id redactedMark u (hne p (List.mem_cons_self _ _))
        (hocc p (List.mem_cons_self _ _))
    have := ih u (fun q hq => hne q (List.mem_cons_of_mem _ hq))
      (fun q hq => hocc q (List.mem_cons_of_mem _ hq))
    simpa [foldRepl, h1] using this

/-- `S` cannot overlap any of the three replacement texts that
`sanitizeMessage` can insert. -/
def sepAll (S : List Char) : Bool :=
  sepFromF id S redactedMark && sepFromF id S pveRepl && sepFromF id S authRepl

theorem sepAll_marker {S : List Char} (h : sepAll S = true) :
    sepFromF id S redactedMark = true := by
  unfold sepAll at h
  simp only [Bool.and_eq_true] at h
  exact h.1.1

theorem sepAll_pve {S : List Char} (h : sepAll S = true) :
    sepFromF id S pveRepl = true := by
  unfold sepAll at h
  simp only [Bool.and_eq_true] at h
  exact h.1.2

theorem sepAll_auth {S : List Char} (h : sepAll S = true) :
    sepFromF id S authRepl = true := by
  unfold sepAll at h
  simp only [Bool.and_eq_true] at h
  exact h.2

/-- Main sanitizer theorem: a registered secret that cannot overlap any of
the replacement texts does not survive `sanitizeMessage` — its own
`replaceAll` pass deletes every occurrence, and no later pass can
re-create one. -/
theorem sanitize_removes {patterns : List (List Char)} {S msg : List Char}
    (hmem : S ∈ patterns) (hne : ∀ p ∈ patterns, p ≠ [])
    (hsep : sepAll S = true) :
    occursF id S (sanitizeMessage patterns msg) = false := by
  obtain ⟨pre, post, hsplit⟩ := List.append_of_mem hmem
  subst hsplit
  rw [sanitizeMessage_eq]
  have h0 : occursF id S
      (foldRepl (pre ++ S :: post) msg) = false := by
    unfold foldRepl
    rw [List.foldl_append, List.foldl_cons]
    have h1 : occursF id S
        (replaceAll S redactedMark
          (pre.foldl (fun acc p => replaceAll p redactedMark acc) msg)) = false :=
      replaceAll_removes _ (sepAll_marker hsep)
    exact foldRepl_preserve (sepAll_marker hsep) post _
      (fun q hq => hne q (by simp [hq])) h1
  have h2 : occursF id S (replacePVE (foldRepl (pre ++ S :: post) msg)) = false := by
    cases hocc : occursF id S (replacePVE (foldRepl (pre ++ S :: post) msg)) with
    | false => rfl
    | true =>
      exfalso
      have := insp_preserve (sepAll_pve hsep) (replacePVE_insp _) hocc
      rw [this] at h0
      simp at h0
  cases hocc : occursF id S
      (replaceAuth (replacePVE (foldRepl (pre ++ S :: post) msg))) with
  | false => rfl
  | true =>
    exfalso
    have := insp_preserve (sepAll_auth hsep) (replaceAuth_insp _) hocc
    rw [this] at h2
    simp at h2

/-! ### The capability gate (`src/core/tools.ts`) -/

/-- The three access tiers (`types/index.ts`). -/
inductive AccessTier where
  | readOnly
  | readExecute
  | full
deriving DecidableEq

/-- `TIER_LEVELS` (tools.ts:16-20). -/
def TIER_LEVELS : AccessTier → Nat
  | .readOnly => 0
  | .readExecute => 1
  | .full => 2

/-- The slice of `AppConfig` consulted by `registerTool`: the process tier
and the optional category allow-list (`null` in TS is `none` here). -/
structure GateConfig where
  accessTier : AccessTier
  categories : Option (List (List Char))

/-- The slice of `ToolRegistrationOptions` consulted by the filter. -/
structure ToolOptions where
  name : List Char
  accessTier : AccessTier
  category : List Char

/-- The admission filter of `registerTool` (tools.ts:45-60): its Boolean
return value — `false` when the tool is filtered out, `true` when the
wrapped executor is registered. -/
def registerTool (cfg : GateConfig) (opts : ToolOptions) : Bool :=
  if TIER_LEVELS cfg.accessTier < TIER_LEVELS opts.accessTier then false
  else
    match cfg.categories with
    | some cats => if !(cats.contains opts.category) then false else true
    | none => true

/-- What a tool handler did on one call: returned text normally, threw an
`Error` instance carrying a message, or threw a non-`Error` value. -/
inductive HandlerOutcome where
  | success (text : List Char)
  | thrownError (message : List Char)
  | thrownNonError

/-- The MCP response assembled by the wrapper: the single text content
block and the `isError` flag (absent on success, hence `false`). -/
structure ToolCallResult where
  text : List Char
  isError : Bool
deriving DecidableEq

/-- tools.ts:94. -/
def unknownErrorMsg : List Char := "An unknown error occurred".data

/-- The executor wrapper installed by `registerTool` (tools.ts:84-100):
normal returns become plain results; a thrown `Error` becomes an
error-flagged result carrying its sanitized message; any other thrown
value becomes an error-flagged result with a fixed text. -/
def wrappedExecutor (patterns : List (List Char)) : HandlerOutcome → ToolCallResult
  | .success t => ⟨t, false⟩
  | .thrownError m => ⟨sanitizeMessage patterns m, true⟩
  | .thrownNonError => ⟨unknownErrorMsg, true⟩

/-! ### The request engine (`PveClient`) -/

/-- Parsed JSON values.  Numbers are embedded as integers; none of the
verified properties depends on non-integral numerics. -/
inductive Json where
  | jnull
  | jbool (b : Bool)
  | jnum (n : Int)
  | jstr (s : List Char)
  | jarr (xs : List Json)
  | jobj (fields : List (List Char × Json))

/-- A JS error value as far as the client inspects one: its name and its
`message` property. -/
structure JsError where
  name : List Char
  message : List Char
deriving DecidableEq

/-- One backend HTTP response, as observed through the `fetch` response
object: status, status text, the `content-type` header (absent = `null`),
the body as raw text (`response.text()`) and the body as parsed JSON
(`response.json()`, which throws a `SyntaxError` on unparsable bodies). -/
structure HttpResponse where
  status : Nat
  statusText : List Char
  contentTypeHdr : Option (List Char)
  bodyText : List Char
  jsonBody : Except JsError Json

/-- The outcome of the `fetch` call itself: a response, or a rejection
(network failure, or the 30-second `AbortSignal.timeout` firing — both
reject the promise with an `Error` that is not a `PveError`). -/
inductive FetchOutcome where
  | response (r : HttpResponse)
  | reject (e : JsError)

/-- `REQUEST_TIMEOUT_MS` (client, line 69). -/
def REQUEST_TIMEOUT_MS : Nat := 30000

/-- `response.ok`: status in the 2xx range. -/
def respOk (r : HttpResponse) : Bool :=
  decide (200 ≤ r.status) && decide (r.status ≤ 299)

/-- Decimal rendering of a status code, as in a JS template literal. -/
def natChars (n : Nat) : List Char := Nat.toDigits 10 n

/-- JS truthiness of a parsed JSON value (`if (errBody.errors)`). -/
def jsTruthy : Json → Bool
  | .jnull => false
  | .jbool b => b
  | .jnum n => !(n == 0)
  | .jstr s => !s.isEmpty
  | .jarr _ => true
  | .jobj _ => true

/-- First-match association lookup on the fields of a parsed JSON object.
`JSON.parse` yields objects with unique keys (later duplicates win during
parsing), so the parsed-object embedding carries each key at most once. -/
def lookupField : List (List Char × Json) → List Char → Option Json
  | [], _ => none
  | (k, v) :: rest, key => if k == key then some v else lookupField rest key

/-- JS member access `j.key` on a parsed JSON value: throws a `TypeError`
on `null` (`Except.error ()`), yields the field on objects, and yields
`undefined` (`none`) on every other value. -/
def jsGetField : Json → List Char → Except Unit (Option Json)
  | .jnull, _ => .error ()
  | .jobj fields, key => .ok (lookupField fields key)
  | _, _ => .ok none

mutual

/-- String coercion of a JSON value in a JS template literal.  Arrays
join their elements with commas (`null` elements render empty); objects
render as `[object Object]`. -/
def jsToString : Json → List Char
  | .jnull => "null".data
  | .jbool true => "true".data
  | .jbool false => "false".data
  | .jnum n => (toString n).data
  | .jstr s => s
  | .jarr xs => jsArrToString xs
  | .jobj _ => "[object Object]".data

/-- Comma-joined rendering of a JSON array, as `Array.prototype.toString`
(`null` elements render empty). -/
def jsArrToString : List Json → List Char
  | [] => []
  | [.jnull] => []
  | [x] => jsToString x
  | .jnull :: xs => ',' :: jsArrToString xs
  | x :: xs => jsToString x ++ (',' :: jsArrToString xs)

end

/-- `Object.entries` of a parsed JSON value, as used on the `errors`
field of an error body: key/value pairs for objects, index/value pairs
for arrays, index/character pairs for strings, nothing for primitives. -/
def jsEntries : Json → List (List Char × Json)
  | .jobj fields => fields
  | .jarr xs => (List.range xs.length).zip xs |>.map (fun p => (natChars p.1, p.2))
  | .jstr s => (List.range s.length).zip s |>.map (fun p => (natChars p.1, .jstr [p.2]))
  | _ => []

/-- `", "`-joined `k: v` rendering of the entries (errors.ts-client 176-178). -/
def joinEntries : List (List Char × Json) → List Char
  | [] => []
  | [kv] => kv.1 ++ ": ".data ++ jsToString kv.2
  | kv :: rest => kv.1 ++ ": ".data ++ jsToString kv.2 ++ ", ".data ++ joinEntries rest

/-- The result of one `request` call: the unwrapped value, or the thrown
`PveError` (sanitized message plus optional numeric status code). -/
inductive ReqResult where
  | ok (v : Json)
  | errP (msg : List Char) (statusCode : Option Nat)

/-- The fixed `TypeError` message produced by V8 when `json.data` is read
off a parsed `null` body (the engine quotes the property name; the quotes
are immaterial and omitted here). -/
def typeErrorNullMsg : List Char :=
  "Cannot read properties of null (reading data)".data

/-- The failure-detail string built in the non-ok branch (client 171-183):
the status line, extended with the `k: v` pairs of a parsed
`{ errors: ... }` body when present and truthy.  A body that fails to
parse, a `null` body (member access throws) and a missing or falsy
`errors` field all leave the bare status line. -/
def errorDetail (r : HttpResponse) : List Char :=
  natChars r.status ++ (' ' :: r.statusText) ++
    (match r.jsonBody with
     | .error _ => []
     | .ok j =>
       match jsGetField j ("errors".data) with
       | .error _ => []
       | .ok none => []
       | .ok (some e) =>
         if jsTruthy e then " — ".data ++ joinEntries (jsEntries e) else [])

/-- The body of the `try` block of `PveClient.request` once a response
arrived (client 171-198), composed with the catch clause: a non-ok status
throws a `PveError` (sanitized message, status code attached); an ok
non-JSON response returns its raw text, or `null` when empty; an ok JSON
response is unwrapped from the `{ data: ... }` envelope.  A JSON parse
failure and the `TypeError` raised by `json.data` on a parsed `null` body
fall into the generic catch, which re-raises them as a `PveError` with a
sanitized message and no status code. -/
def handleResponse (patterns : List (List Char)) (method path : List Char)
    (r : HttpResponse) : ReqResult :=
  if !(respOk r) then
    .errP
      (sanitizeMessage patterns
        (method ++ (' ' :: path) ++ " failed: ".data ++ errorDetail r))
      (some r.status)
  else
    if !(occursF id ("json".data) (r.contentTypeHdr.getD [])) then
      if r.bodyText.isEmpty then .ok .jnull else .ok (.jstr r.bodyText)
    else
      match r.jsonBody with
      | .error e => .errP (sanitizeMessage patterns e.message) none
      | .ok j =>
        match jsGetField j ("data".data) with
        | .error _ => .errP (sanitizeMessage patterns typeErrorNullMsg) none
        | .ok (some v) => .ok v
        | .ok none => .ok j

/-- `PveClient.request` (client 149-207), as a function of the fetch
outcome.  A rejection of the `fetch` promise itself (network failure or
timeout) is not a `PveError`, so the catch wraps it with a sanitized
message and no status code. -/
def request (patterns : List (List Char)) (method path : List Char)
    (outcome : FetchOutcome) : ReqResult :=
  match outcome with
  | .reject e => .errP (sanitizeMessage patterns e.message) none
  | .response r => handleResponse patterns method path r

/-- `PveClient.get` — `request` with method `"GET"`. -/
def getRequest (patterns : List (List Char)) (path : List Char)
    (outcome : FetchOutcome) : ReqResult :=
  request patterns ("GET".data) path outcome

/-- `PveClient.post` — `request` with method `"POST"`. -/
def postRequest (patterns : List (List Char)) (path : List Char)
    (outcome : FetchOutcome) : ReqResult :=
  request patterns ("POST".data) path outcome

/-- `PveClient.put` — `request` with method `"PUT"`. -/
def putRequest (patterns : List (List Char)) (path : List Char)
    (outcome : FetchOutcome) : ReqResult :=
  request patterns ("PUT".data) path outcome

/-- `PveClient.delete` — `request` with method `"DELETE"`. -/
def deleteRequest (patterns : List (List Char)) (path : List Char)
    (outcome : FetchOutcome) : ReqResult :=
  request patterns ("DELETE".data) path outcome

/-- The result of `validateConnection`: success, or the thrown `PveError`. -/
inductive ValidateResult where
  | success
  | errP (msg : List Char) (statusCode : Option Nat)
deriving DecidableEq

/-- The fixed authentication-failure message (client 117). -/
def authFailedMsg : List Char :=
  "Authentication failed -- check PVE_TOKEN_ID and PVE_TOKEN_SECRET".data

/-- The response branch of `validateConnection` (client 115-134 plus the
catch): 401/403 throw the fixed authentication message; other non-ok
statuses throw a generic connection-check failure; a JSON parse failure
on the ok path is wrapped into the sanitized cannot-connect message.
(The version logging on success has no observable result value and is
elided.) -/
def validateResp (patterns : List (List Char)) (baseUrl : List Char)
    (r : HttpResponse) : ValidateResult :=
  if r.status == 401 || r.status == 403 then
    .errP authFailedMsg (some r.status)
  else if !(respOk r) then
    .errP ("Connection check failed: ".data ++ natChars r.status ++ (' ' :: r.statusText))
      (some r.status)
  else
    match r.jsonBody with
    | .error e =>
      .errP
        (sanitizeMessage patterns
          ("Cannot connect to Proxmox VE at ".data ++ baseUrl ++ ": ".data ++ e.message))
        none
    | .ok _ => .success

/-- `PveClient.validateConnection` (client 106-143): a `fetch` rejection
is wrapped into the sanitized cannot-connect message; a response goes
through `validateResp`. -/
def validateConnection (patterns : List (List Char)) (baseUrl : List Char)
    (outcome : FetchOutcome) : ValidateResult :=
  match outcome with
  | .reject e =>
    .errP
      (sanitizeMessage patterns
        ("Cannot connect to Proxmox VE at ".data ++ baseUrl ++ ": ".data ++ e.message))
      none
  | .response r => validateResp patterns baseUrl r

/-! ### Helper facts for the claims -/

/-- The idempotence core: when no registered pattern can overlap the
replacement texts, one application of `sanitizeMessage` reaches a fixed
point — the pattern fold finds nothing left, and both structural passes
leave their own canonical output forms unchanged. -/
theorem sanitize_idem_core (patterns : List (List Char)) (t : List Char)
    (hne : ∀ p ∈ patterns, p ≠ [])
    (hsep : ∀ p ∈ patterns, sepAll p = true) :
    sanitizeMessage patterns (sanitizeMessage patterns t) = sanitizeMessage patterns t := by
  have hforall : ∀ p ∈ patterns, occursF id p (sanitizeMessage patterns t) = false :=
    fun p hp => @sanitize_removes patterns p t hp hne (hsep p hp)
  rw [sanitizeMessage_eq patterns (sanitizeMessage patterns t),
      foldRepl_id patterns (sanitizeMessage patterns t) hne hforall,
      sanitizeMessage_eq patterns t]
  rw [PGood_fix (PGood_replaceAuth (PGood_out (foldRepl patterns t)))]
  rw [AGood_fix (AGood_out (replacePVE (foldRepl patterns t)))]

/-- A successful JSON response carrying a bare `null` body (counterexample
fixture for the unwrapping claim). -/
def nullJsonResp : HttpResponse :=
  { status := 200, statusText := "OK".data,
    contentTypeHdr := some ("application/json".data),
    bodyText := "null".data, jsonBody := .ok .jnull }

/-- A 401 response with an empty reason phrase (as delivered over HTTP/2)
and an unparsable error body (counterexample fixture). -/
def resp401 : HttpResponse :=
  { status := 401, statusText := [], contentTypeHdr := none,
    bodyText := [],
    jsonBody := .error ⟨"SyntaxError".data, "Unexpected end of JSON input".data⟩ }

/-- A 403 response (witness fixture for `validateConnection`). -/
def resp403 : HttpResponse :=
  { status := 403, statusText := "Forbidden".data, contentTypeHdr := none,
    bodyText := [],
    jsonBody := .error ⟨"SyntaxError".data, "Unexpected end of JSON input".data⟩ }

/-- A successful non-JSON response with a non-empty body (witness
fixture). -/
def textResp : HttpResponse :=
  { status := 200, statusText := "OK".data,
    contentTypeHdr := some ("text/plain".data),
    bodyText := "ok".data,
    jsonBody := .error ⟨"SyntaxError".data, "Unexpected token".data⟩ }

/-- A successful JSON response whose object body carries `data: null` plus
an extra field (witness fixture for envelope unwrapping). -/
def respDataNull : HttpResponse :=
  { status := 200, statusText := "OK".data,
    contentTypeHdr := some ("application/json".data),
    bodyText := [],
    jsonBody := .ok (.jobj [(("data".data), .jnull), (("extra".data), .jnum 1)]) }

/-! ### The claims -/

/-- C1, counterexample: the secret `"]z"`, registered via
`registerSensitivePattern`, occurs in the message `"x]zz"`, and still
occurs in the sanitized output `"x[REDACTED]z"` — replacing the single
occurrence splices the closing bracket of the marker against the following
character and re-creates the secret.  This refutes the claim that no
registered secret ever survives `sanitizeMessage`. -/
theorem c1_secret_survives :
    occursF id ("]z".data) ("x]zz".data) = true ∧
    occursF id ("]z".data)
      (sanitizeMessage (registerSensitivePattern ("]z".data) []) ("x]zz".data)) = true := by
  decide

/-- C1, amended: for every registered secret S and every message, the
sanitized output does not contain S, provided every registered pattern is
non-empty and S cannot overlap the three replacement texts
(`[REDACTED]`, `PVEAPIToken=[REDACTED]`, `authorization: [REDACTED]`):
S neither contains nor is contained in any of them and no nontrivial
split of S matches one of their edges. -/
theorem c1_sanitize_removes_secret {patterns : List (List Char)} {S M : List Char}
    (hmem : S ∈ patterns) (hne : ∀ p ∈ patterns, p ≠ [])
    (hsep : sepAll S = true) :
    occursF id S (sanitizeMessage patterns M) = false :=
  sanitize_removes hmem hne hsep

/-- Witness for the amended C1 at a concrete secret and message. -/
theorem c1_witness :
    occursF id ("xq3w".data)
      (sanitizeMessage [("xq3w".data)] ("boom xq3w end".data)) = false :=
  c1_sanitize_removes_secret (by decide) (by decide) (by decide)

/-- C2: the admission filter of `registerTool` returns `true` exactly when
the declared minimum tier does not exceed the process tier and the category
allow-list is absent (`null`, i.e. no filter configured — the loader never
produces an empty non-null list) or contains the category of the tool. -/
theorem c2_admit_iff (cfg : GateConfig) (opts : ToolOptions) :
    registerTool cfg opts = true ↔
      (TIER_LEVELS opts.accessTier ≤ TIER_LEVELS cfg.accessTier ∧
        (cfg.categories = none ∨
          ∃ cats, cfg.categories = some cats ∧ opts.category ∈ cats)) := by
  unfold registerTool
  by_cases ht : TIER_LEVELS cfg.accessTier < TIER_LEVELS opts.accessTier
  · rw [if_pos ht]
    constructor
    · intro h; simp at h
    · rintro ⟨h1, _⟩; omega
  · rw [if_neg ht]
    have ht' : TIER_LEVELS opts.accessTier ≤ TIER_LEVELS cfg.accessTier := by omega
    cases hc : cfg.categories with
    | none => simp [ht']
    | some cats =>
      by_cases hmem : opts.category ∈ cats
      · have hcont : cats.contains opts.category = true := by
          simpa [List.contains] using List.elem_iff.mpr hmem
        simp [hcont, ht', hmem]
      · have hcont : cats.contains opts.category = false := by
          cases hcc : cats.contains opts.category with
          | false => rfl
          | true =>
            exfalso
            exact hmem (List.elem_iff.mp (by simpa [List.contains] using hcc))
        simp [hcont, hmem]

/-- C3: for an admitted capability, a handler that throws an `Error` with
message `m` yields — through the wrapper, without rethrowing — an
error-flagged result whose text is exactly `sanitizeMessage m`. -/
theorem c3_thrown_error_sanitized (cfg : GateConfig) (opts : ToolOptions)
    (patterns : List (List Char)) (m : List Char)
    (_hadm : registerTool cfg opts = true) :
    wrappedExecutor patterns (.thrownError m) =
      ⟨sanitizeMessage patterns m, true⟩ :=
  rfl

/-- Witness for C3: an admitted read-only tool, a registered secret, a
throwing handler. -/
theorem c3_witness :
    wrappedExecutor [("tok".data)] (.thrownError ("fail tok now".data)) =
      ⟨sanitizeMessage [("tok".data)] ("fail tok now".data), true⟩ :=
  c3_thrown_error_sanitized ⟨.full, none⟩
    ⟨"pve_get_version".data, .readOnly, "nodes".data⟩ _ _ (by decide)

/-- C4, counterexample: a successful JSON response whose body is the bare
JSON value `null` is not returned unchanged — reading `json.data` off the
parsed `null` throws a `TypeError`, which the generic catch re-raises as
a sanitized `PveError` without status code.  This refutes the claim for
bare JSON values in general. -/
theorem c4_bare_null_not_returned :
    request [] ("GET".data) ("/version".data) (.response nullJsonResp) =
      .errP typeErrorNullMsg none ∧
    ReqResult.errP typeErrorNullMsg none ≠ ReqResult.ok .jnull := by
  constructor
  · rfl
  · intro h
    exact ReqResult.noConfusion h

/-- C4, amended: on a successful response the unwrapping—identical across
all four verbs—returns the `data` field of a JSON object envelope, returns
any other *non-null* JSON body unchanged (any body on which the `data`
member access yields `undefined`), and for non-JSON content returns the
raw text, or `null` when that text is empty. -/
theorem c4_unwrap_amended (patterns : List (List Char)) (method path : List Char)
    (r : HttpResponse) (hok : respOk r = true) :
    ((occursF id ("json".data) (r.contentTypeHdr.getD []) = false →
        request patterns method path (.response r) =
          (if r.bodyText.isEmpty then .ok .jnull else .ok (.jstr r.bodyText))) ∧
      (∀ fields v, occursF id ("json".data) (r.contentTypeHdr.getD []) = true →
        r.jsonBody = .ok (.jobj fields) →
        lookupField fields ("data".data) = some v →
        request patterns method path (.response r) = .ok v) ∧
      (∀ j, occursF id ("json".data) (r.contentTypeHdr.getD []) = true →
        r.jsonBody = .ok j →
        jsGetField j ("data".data) = .ok none →
        request patterns method path (.response r) = .ok j)) ∧
    ((∀ o, getRequest patterns path o = request patterns ("GET".data) path o) ∧
      (∀ o, postRequest patterns path o = request patterns ("POST".data) path o) ∧
      (∀ o, putRequest patterns path o = request patterns ("PUT".data) path o) ∧
      (∀ o, deleteRequest patterns path o = request patterns ("DELETE".data) path o)) := by
  refine ⟨⟨?_, ?_, ?_⟩, fun o => rfl, fun o => rfl, fun o => rfl, fun o => rfl⟩
  · intro hct
    have hr : request patterns method path (.response r) =
        handleResponse patterns method path r := rfl
    rw [hr]
    unfold handleResponse
    rw [hok, hct]
    simp
  · intro fields v hct hbody hdata
    have hr : request patterns method path (.response r) =
        handleResponse patterns method path r := rfl
    rw [hr]
    unfold handleResponse
    rw [hok, hct, hbody]
    simp [jsGetField, hdata]
  · intro j hct hbody hdata
    have hr : request patterns method path (.response r) =
        handleResponse patterns method path r := rfl
    rw [hr]
    unfold handleResponse
    rw [hok, hct, hbody]
    simp [hdata]

/-- Witness for the amended C4: a non-JSON response body `"ok"` is
returned as raw text. -/
theorem c4_witness :
    request [] ("GET".data) ("/x".data) (.response textResp) =
      .ok (.jstr ("ok".data)) := by
  have h := (c4_unwrap_amended [] ("GET".data) ("/x".data) textResp (by decide)).1.1
    (by decide)
  exact h.trans (by rfl)

/-- C5, counterexample: an ordinary backend call answered with HTTP 401
(empty reason phrase, unparsable body) produces the generic message
`"GET /nodes failed: 401 "`, which mentions authentication nowhere (not
even case-insensitively): `PveClient.request` does not special-case
401/403 — only `validateConnection` does. -/
theorem c5_401_message_generic :
    request [] ("GET".data) ("/nodes".data) (.response resp401) =
      .errP ("GET /nodes failed: 401 ".data) (some 401) ∧
    occursF lowC ("auth".data) ("GET /nodes failed: 401 ".data) = false := by
  constructor
  · rfl
  · decide

/-- C5, amended: the startup `validateConnection` call maps 401 and 403 to
the fixed authentication-specific message; for ordinary per-call requests
the failure carries the numeric status code and reaches the tool caller as
an error-flagged result through the execution wrapper instead of escaping
the process. -/
theorem c5_auth_amended (patterns : List (List Char)) (baseUrl : List Char)
    (r : HttpResponse) (h : r.status = 401 ∨ r.status = 403) :
    validateConnection patterns baseUrl (.response r) =
      .errP authFailedMsg (some r.status) ∧
    occursF lowC ("auth".data) authFailedMsg = true ∧
    (∀ m, wrappedExecutor patterns (.thrownError m) =
      ⟨sanitizeMessage patterns m, true⟩) := by
  refine ⟨?_, by decide, fun m => rfl⟩
  have hr : validateConnection patterns baseUrl (.response r) =
      validateResp patterns baseUrl r := rfl
  rw [hr]
  unfold validateResp
  rcases h with h | h <;> rw [h] <;> rfl

/-- Witness for the amended C5 at a concrete 403 response. -/
theorem c5_witness :
    validateConnection [] ("https://pve.example:8006".data) (.response resp403) =
      .errP authFailedMsg (some 403) :=
  (c5_auth_amended [] ("https://pve.example:8006".data) resp403 (Or.inr rfl)).1

/-- C6: every rejection of the underlying `fetch` call — the 30-second
`AbortSignal.timeout` firing exactly like a network-unreachable failure —
is re-raised through the same generic catch as a `PveError` carrying the
sanitized rejection message and no status code, so the two failure kinds
are indistinguishable. -/
theorem c6_reject_generic (patterns : List (List Char)) (method path : List Char)
    (e : JsError) :
    request patterns method path (.reject e) =
      .errP (sanitizeMessage patterns e.message) none ∧
    REQUEST_TIMEOUT_MS = 30000 :=
  ⟨rfl, rfl⟩

/-- C7, counterexample: with the registered secret `"RED"`, sanitizing
`"a RED b"` once yields `"a [REDACTED] b"`, but a second application
matches `"RED"` inside the freshly inserted marker and corrupts it to
`"a [[REDACTED]ACTED] b"` — `sanitizeMessage` is not idempotent. -/
theorem c7_not_idempotent :
    sanitizeMessage (registerSensitivePattern ("RED".data) [])
        (sanitizeMessage (registerSensitivePattern ("RED".data) []) ("a RED b".data)) ≠
      sanitizeMessage (registerSensitivePattern ("RED".data) []) ("a RED b".data) := by
  decide

/-- C7, amended: `sanitizeMessage` is idempotent on every message,
provided every registered pattern is non-empty and cannot overlap the
three replacement texts; without the overlap proviso a second application
can find fresh matches inside the inserted markers. -/
theorem c7_idempotent_amended (patterns : List (List Char)) (t : List Char)
    (hne : ∀ p ∈ patterns, p ≠ [])
    (hsep : ∀ p ∈ patterns, sepAll p = true) :
    sanitizeMessage patterns (sanitizeMessage patterns t) =
      sanitizeMessage patterns t :=
  sanitize_idem_core patterns t hne hsep

/-- Witness for the amended C7 at a concrete registry and a message that
triggers the token regular expression. -/
theorem c7_witness :
    sanitizeMessage [("tok9".data)]
        (sanitizeMessage [("tok9".data)] ("call PVEAPIToken=u1!k9 tok9 now".data)) =
      sanitizeMessage [("tok9".data)] ("call PVEAPIToken=u1!k9 tok9 now".data) :=
  c7_idempotent_amended [("tok9".data)] ("call PVEAPIToken=u1!k9 tok9 now".data)
    (by decide) (by decide)

/-- C8: a successful JSON response parsing to an object with a `data` key
returns exactly the value under that key — even `null` — and silently discards all
other fields. -/
theorem c8_data_field_unwrap (patterns : List (List Char)) (method path : List Char)
    (r : HttpResponse) (fields : List (List Char × Json)) (v : Json)
    (hok : respOk r = true)
    (hct : occursF id ("json".data) (r.contentTypeHdr.getD []) = true)
    (hbody : r.jsonBody = .ok (.jobj fields))
    (hdata : lookupField fields ("data".data) = some v) :
    request patterns method path (.response r) = .ok v := by
  have hr : request patterns method path (.response r) =
      handleResponse patterns method path r := rfl
  rw [hr]
  unfold handleResponse
  rw [hok, hct, hbody]
  simp [jsGetField, hdata]

/-- Witness for C8: `{"data": null, "extra": 1}` unwraps to `null`. -/
theorem c8_witness :
    request [] ("GET".data) ("/a".data) (.response respDataNull) = .ok .jnull :=
  c8_data_field_unwrap [] ("GET".data) ("/a".data) respDataNull
    [(("data".data), .jnull), (("extra".data), .jnum 1)] .jnull
    (by decide) (by decide) rfl (by rfl)

/-- C9: for an admitted capability, a handler that throws a non-`Error`
value yields an error-flagged result with the fixed text
`"An unknown error occurred"`; the content of the thrown value is never
consulted and the registry plays no role (`sanitizeMessage` is not
applied). -/
theorem c9_non_error_unknown (cfg : GateConfig) (opts : ToolOptions)
    (patterns : List (List Char))
    (_hadm : registerTool cfg opts = true) :
    wrappedExecutor patterns .thrownNonError = ⟨unknownErrorMsg, true⟩ ∧
    wrappedExecutor patterns .thrownNonError = wrappedExecutor [] .thrownNonError :=
  ⟨rfl, rfl⟩

/-- Witness for C9 at a concrete admitted tool and registry. -/
theorem c9_witness :
    wrappedExecutor [("sec".data)] .thrownNonError = ⟨unknownErrorMsg, true⟩ :=
  (c9_non_error_unknown ⟨.readExecute, some [("qemu".data)]⟩
    ⟨"pve_start_vm".data, .readExecute, "qemu".data⟩ [("sec".data)] (by decide)).1

/-- C10: registering an empty (falsy) string is a no-op, and consequently
every registry reachable from the initially empty `SENSITIVE_PATTERNS` by
any sequence of `registerSensitivePattern` calls contains only non-empty
strings — `sanitizeMessage` never runs a replacement with an empty search
pattern. -/
theorem c10_registry_nonempty :
    (∀ registry, registerSensitivePattern [] registry = registry) ∧
    (∀ (calls : List (List Char)) (p : List Char),
      p ∈ calls.foldl (fun acc c => registerSensitivePattern c acc) [] → p ≠ []) := by
  constructor
  · intro registry; rfl
  · have key : ∀ (calls acc : List (List Char)),
        (∀ p ∈ acc, p ≠ []) →
        ∀ p ∈ calls.foldl (fun acc c => registerSensitivePattern c acc) acc, p ≠ [] := by
      intro calls
      induction calls with
      | nil => intro acc h; exact h
      | cons c rest ih =>
        intro acc h
        simp only [List.foldl_cons]
        apply ih
        intro p hp
        unfold registerSensitivePattern at hp
        by_cases hcl : c.length > 0
        · rw [if_pos hcl] at hp
          rcases List.mem_append.mp hp with hp | hp
          · exact h p hp
          · rcases List.mem_singleton.mp hp with rfl
            intro hnil
            rw [hnil] at hcl
            simp at hcl
        · rw [if_neg hcl] at hp
          exact h p hp
    intro calls p hp
    exact key calls [] (by simp) p hp

/-- Witness for C10: the no-op call drops the empty string and the
resulting registry element is non-empty. -/
theorem c10_witness : ("abc".data) ≠ ([] : List Char) :=
  c10_registry_nonempty.2 [[], ("abc".data)] ("abc".data) (by decide)

end McpPve
